import Mathlib

/-!
# Dashboard statistics and health trends (`server/controllers/userController.js`)

A shallow embedding of the controller's cache (`statsCache`, `clearStatsCache`) and of the
request handlers `deleteUser`, `getDashboardStats` and `getHealthTrends`.

* JavaScript numbers that matter here (epoch milliseconds, counts, scores) are integers;
  `x || d` and `x && y` follow JavaScript truthiness (`null`, `0` and `""` are falsy).
* The handlers run against a data store that lives outside this module; every call to it
  is recorded in the world's call log together with its outcome.
-/

namespace UserController

/-! ## Data model -/

/-- Identifier of a stored record (an ObjectId or a generated key): a non-empty string,
hence a truthy value whose `toString()` is itself. -/
structure Id where
  str : String
  nonempty : str ≠ ""

instance : DecidableEq Id := fun a b =>
  match a, b with
  | ⟨s, _⟩, ⟨t, _⟩ =>
    if h : s = t then isTrue (by subst h; rfl)
    else isFalse (fun e => h (congrArg Id.str e))

/-- A reference to a user held by another record: either the bare identifier or a
populated user record carrying `_id`. -/
inductive Ref where
  | plain (id : Id)
  | populated (_id : Id)
  deriving DecidableEq

/-- The identifier a reference points to. -/
def Ref.id : Ref → Id
  | .plain i => i
  | .populated i => i

structure User where
  id : Id
  role : String
  deriving DecidableEq

structure Appointment where
  doctor : Ref
  patient : Ref
  status : String
  appointmentDate : Int
  deriving DecidableEq

structure AiResponse where
  severity : Option String
  confidence : Option Int
  possibleDiagnosis : Option (List String)
  deriving DecidableEq

structure AIAnalysis where
  doctor : Ref
  patient : Ref
  createdAt : Int
  aiResponse : Option AiResponse
  accuracy : Option Int
  deriving DecidableEq

structure Report where
  patient : Ref
  deriving DecidableEq

/-- The `stats` object assembled by `getDashboardStats`, one shape per role branch;
`empty` is the initial `{}`. -/
inductive Stats where
  | empty
  | admin (totalUsers totalPatients totalDoctors totalAppointments totalAnalyses
      pendingAppointments : Nat)
  | doctor (myAppointments pendingAppointments completedAppointments myAnalyses
      totalPatients : Nat)
  | patient (myAppointments upcomingAppointments myReports myAnalyses : Nat)
  deriving DecidableEq

/-- One element of the `trends` array built by `getHealthTrends`. -/
structure TrendPoint where
  date : Int
  severity : String
  confidence : Int
  accuracy : Option Int
  diagnosisCount : Nat
  deriving DecidableEq

/-- The module-level `statsCache` object. -/
structure StatsCache where
  data : Option Stats
  timestamp : Option Int
  ttl : Int
  deriving DecidableEq

/-- Initial value of `statsCache`: `{ data: null, timestamp: null, ttl: 5 * 60 * 1000 }`. -/
def statsCache : StatsCache :=
  { data := none, timestamp := none, ttl := 5 * 60 * 1000 }

/-! ## The data store -/

inductive Coll where
  | users | appointments | analyses | reports
  deriving DecidableEq

inductive Op where
  | find | countDocuments | distinct | findByIdAndDelete
  deriving DecidableEq

/-- A filter object passed to the store; a field that is `none` is not constrained. -/
structure Query where
  role : Option String := none
  status : Option String := none
  statusIn : Option (List String) := none
  doctor : Option Id := none
  patient : Option Id := none
  appointmentDateGte : Option Int := none
  id : Option Id := none
  deriving DecidableEq

/-- A data-store call as issued by a handler. -/
structure Call where
  coll : Coll
  op : Op
  query : Query
  deriving DecidableEq

/-- A logged data-store call and whether it failed. -/
structure Entry where
  call : Call
  failed : Bool
  deriving DecidableEq

inductive Err where
  | dataAccess
  | typeError
  deriving DecidableEq

/-- Contents of the four collections. -/
structure DB where
  users : List User
  appointments : List Appointment
  analyses : List AIAnalysis
  reports : List Report
  deriving DecidableEq

/-- Everything a handler can read or change. -/
structure World where
  db : DB
  cache : StatsCache
  calls : List Entry
  reads : Nat
  deriving DecidableEq

/-- The surroundings of a request: which optional store capabilities exist, which calls
fail, what the clock shows at each reading and the local time-zone offset (ms). -/
structure Env where
  hasCount : Coll → Bool
  hasDistinct : Coll → Bool
  fault : List Entry → Call → Bool
  clock : Nat → Int
  tz : Int

/-- Modelled from the spec: the store's filter semantics (`utils/modelHelper.js` is not part
of the sources); a user matches when every constrained field it has equals the filter. -/
def Query.matchesUser (q : Query) (u : User) : Bool :=
  q.role.all (fun r => decide (u.role = r)) &&
  q.id.all (fun i => decide (u.id = i)) &&
  q.status.isNone && q.statusIn.isNone && q.doctor.isNone && q.patient.isNone &&
  q.appointmentDateGte.isNone

/-- Modelled from the spec: filter semantics on appointments (`modelHelper.js` is absent);
references match by identifier, `statusIn` is `$in`, `appointmentDateGte` is `$gte`. -/
def Query.matchesAppointment (q : Query) (a : Appointment) : Bool :=
  q.status.all (fun s => decide (a.status = s)) &&
  q.statusIn.all (fun ss => decide (a.status ∈ ss)) &&
  q.doctor.all (fun d => decide (a.doctor.id = d)) &&
  q.patient.all (fun p => decide (a.patient.id = p)) &&
  q.appointmentDateGte.all (fun t => decide (t ≤ a.appointmentDate)) &&
  q.role.isNone && q.id.isNone

/-- Modelled from the spec: filter semantics on analyses (`modelHelper.js` is absent). -/
def Query.matchesAnalysis (q : Query) (a : AIAnalysis) : Bool :=
  q.doctor.all (fun d => decide (a.doctor.id = d)) &&
  q.patient.all (fun p => decide (a.patient.id = p)) &&
  q.role.isNone && q.id.isNone && q.status.isNone && q.statusIn.isNone &&
  q.appointmentDateGte.isNone

/-- Modelled from the spec: filter semantics on reports (`modelHelper.js` is absent). -/
def Query.matchesReport (q : Query) (r : Report) : Bool :=
  q.patient.all (fun p => decide (r.patient.id = p)) &&
  q.role.isNone && q.id.isNone && q.status.isNone && q.statusIn.isNone &&
  q.doctor.isNone && q.appointmentDateGte.isNone

/-! ## Effects -/

/-- A computation inside a handler's `try` block: it either yields a value or throws, and
whatever it did to the world before throwing stays done. -/
def Eff (α : Type) : Type := World → Except Err α × World

def Eff.pure {α : Type} (a : α) : Eff α := fun w => (.ok a, w)

def Eff.bind {α β : Type} (m : Eff α) (f : α → Eff β) : Eff β := fun w =>
  match m w with
  | (.ok a, w') => f a w'
  | (.error e, w') => (.error e, w')

instance : Monad Eff where
  pure := Eff.pure
  bind := Eff.bind

/-- A thrown exception. -/
def raise {α : Type} (e : Err) : Eff α := fun w => (.error e, w)

/-- Issue a data-store call: it is logged with its outcome, and either fails or is
answered from (and may change) the contents. -/
def issue {α : Type} (env : Env) (c : Call) (answer : DB → α × DB) : Eff α := fun w =>
  if env.fault w.calls c then
    (.error .dataAccess, { w with calls := w.calls ++ [⟨c, true⟩] })
  else
    (.ok (answer w.db).1, { w with db := (answer w.db).2, calls := w.calls ++ [⟨c, false⟩] })

/-- A read of the clock: `Date.now()` or `new Date()`. -/
def dateNow (env : Env) : Eff Int := fun w =>
  (.ok (env.clock w.reads), { w with reads := w.reads + 1 })

def readCache : Eff StatsCache := fun w => (.ok w.cache, w)

/-- The two assignments `statsCache.data = stats; statsCache.timestamp = t`. -/
def writeCache (data : Option Stats) (timestamp : Option Int) : Eff Unit := fun w =>
  (.ok (), { w with cache := { w.cache with data := data, timestamp := timestamp } })

/-! ## Store methods

Modelled from the spec (section 6, consumed capability interface): `find` returns the
matching records, `countDocuments` their number, `distinct` the distinct values of a field
over them. The optional methods throw a `TypeError` when the model does not have them. -/

/-- Modelled from the spec: `User.find(q)`; `modelHelper.js` is absent. -/
def User.find (env : Env) (q : Query) : Eff (List User) :=
  issue env ⟨.users, .find, q⟩ fun db => (db.users.filter q.matchesUser, db)

/-- Modelled from the spec: `Appointment.find(q)`; `modelHelper.js` is absent. -/
def Appointment.find (env : Env) (q : Query) : Eff (List Appointment) :=
  issue env ⟨.appointments, .find, q⟩ fun db => (db.appointments.filter q.matchesAppointment, db)

/-- Modelled from the spec: `AIAnalysis.find(q)`; `modelHelper.js` is absent. -/
def AIAnalysis.find (env : Env) (q : Query) : Eff (List AIAnalysis) :=
  issue env ⟨.analyses, .find, q⟩ fun db => (db.analyses.filter q.matchesAnalysis, db)

/-- Modelled from the spec: `Report.find(q)`; `modelHelper.js` is absent. -/
def Report.find (env : Env) (q : Query) : Eff (List Report) :=
  issue env ⟨.reports, .find, q⟩ fun db => (db.reports.filter q.matchesReport, db)

/-- Modelled from the spec: `User.countDocuments(q)`; `modelHelper.js` is absent. -/
def User.countDocuments (env : Env) (q : Query) : Eff Nat :=
  if env.hasCount .users then
    issue env ⟨.users, .countDocuments, q⟩ fun db => ((db.users.filter q.matchesUser).length, db)
  else raise .typeError

/-- Modelled from the spec: `Appointment.countDocuments(q)`; `modelHelper.js` is absent. -/
def Appointment.countDocuments (env : Env) (q : Query) : Eff Nat :=
  if env.hasCount .appointments then
    issue env ⟨.appointments, .countDocuments, q⟩ fun db =>
      ((db.appointments.filter q.matchesAppointment).length, db)
  else raise .typeError

/-- Modelled from the spec: `AIAnalysis.countDocuments(q)`; `modelHelper.js` is absent. -/
def AIAnalysis.countDocuments (env : Env) (q : Query) : Eff Nat :=
  if env.hasCount .analyses then
    issue env ⟨.analyses, .countDocuments, q⟩ fun db =>
      ((db.analyses.filter q.matchesAnalysis).length, db)
  else raise .typeError

/-- Modelled from the spec: `Report.countDocuments(q)`; `modelHelper.js` is absent. -/
def Report.countDocuments (env : Env) (q : Query) : Eff Nat :=
  if env.hasCount .reports then
    issue env ⟨.reports, .countDocuments, q⟩ fun db =>
      ((db.reports.filter q.matchesReport).length, db)
  else raise .typeError

/-- Modelled from the spec: `Appointment.distinct("patient", q)`, the distinct patient
identifiers over the matching appointments; `modelHelper.js` is absent. -/
def Appointment.distinctPatient (env : Env) (q : Query) : Eff (List Id) :=
  if env.hasDistinct .appointments then
    issue env ⟨.appointments, .distinct, q⟩ fun db =>
      (((db.appointments.filter q.matchesAppointment).map fun a => a.patient.id).dedup, db)
  else raise .typeError

/-- Modelled from the spec: `User.findByIdAndDelete(id)` removes the user with that
identifier and returns it, or returns `null` when there is none; `modelHelper.js` is
absent. -/
def User.findByIdAndDelete (env : Env) (id : Id) : Eff (Option User) :=
  issue env ⟨.users, .findByIdAndDelete, { id := some id }⟩ fun db =>
    match db.users.find? (fun u => decide (u.id = id)) with
    | some u => (some u, { db with users := db.users.erase u })
    | none => (none, db)

/-! ## Requests and responses -/

/-- The authenticated caller, `req.user`. -/
structure Identity where
  id : Id
  role : String
  deriving DecidableEq

/-- What a handler sends back. -/
inductive Response where
  /-- Sent by `res.json({ success: true, stats })`. -/
  | stats (s : Stats)
  /-- Sent by `res.json({ success: true, trends })`. -/
  | trends (ts : List TrendPoint)
  /-- Sent by `res.json({ success: true, message })`. -/
  | message (m : String)
  /-- Sent by `res.status(code).json({ message })`. -/
  | status (code : Nat) (m : String)
  /-- Passed on by `next(error)`. -/
  | next (e : Err)
  deriving DecidableEq

/-- The handler wrapper `try { ... } catch (error) { next(error); }`. -/
def handle (body : Eff Response) : World → Response × World := fun w =>
  match body w with
  | (.ok r, w') => (r, w')
  | (.error e, w') => (.next e, w')

/-! ## The cache -/

/-- The function `clearStatsCache`. -/
def clearStatsCache : World → World := fun w =>
  { w with cache := { w.cache with data := none, timestamp := none } }

/-- Truthiness of a number-or-null: `null` and `0` are falsy. -/
def truthyNum : Option Int → Bool
  | some n => n != 0
  | none => false

/-- The hit test of `getDashboardStats`:
`statsCache.data && statsCache.timestamp && now - statsCache.timestamp < statsCache.ttl`
(in the subtraction `null` counts as `0`). -/
def cacheFresh (c : StatsCache) (now : Int) : Bool :=
  c.data.isSome && truthyNum c.timestamp && decide (now - c.timestamp.getD 0 < c.ttl)

/-! ## `deleteUser` -/

/-- The `try` block of `deleteUser`; `paramsId` is `req.params.id`. -/
def deleteUserTry (env : Env) (paramsId : Id) (user : Identity) : Eff Response :=
  if paramsId = user.id then
    pure (.status 400 "Cannot delete your own account")
  else do
    let found ← User.findByIdAndDelete env paramsId
    match found with
    | none => pure (.status 404 "User not found")
    | some _ => pure (.message "User deleted")

def deleteUser (env : Env) (paramsId : Id) (user : Identity) : World → Response × World :=
  handle (deleteUserTry env paramsId user)

/-! ## `getDashboardStats` -/

def msPerDay : Int := 86400000

/-- The instant `today` after `today.setHours(0, 0, 0, 0)`: local midnight of the day
containing `now`, for a fixed offset `tz` of local time from UTC. -/
def startOfDay (tz now : Int) : Int := now - (now + tz) % msPerDay

/-- The element mapped into the `Set` of the doctor branch:
`a.patient?._id?.toString() || a.patient?.toString() || a.patient`. -/
def patientKey : Ref → String
  | .populated i => if i.str ≠ "" then i.str else "[object Object]"
  | .plain i => if i.str ≠ "" then i.str else i.str

/-- The admin branch on a cache miss, up to the assembled `stats` object (lines 183-229). -/
def adminCounts (env : Env) : Eff Stats := do
  let useInMemory := !env.hasCount .users
  if useInMemory then do
    let allUsers ← User.find env {}
    let totalUsers := allUsers.length
    let totalPatients := (allUsers.filter fun u => decide (u.role = "patient")).length
    let totalDoctors := (allUsers.filter fun u => decide (u.role = "doctor")).length
    let allAppointments ← Appointment.find env {}
    let totalAppointments := allAppointments.length
    let pendingAppointments :=
      (allAppointments.filter fun a => decide (a.status = "pending")).length
    let allAnalyses ← AIAnalysis.find env {}
    let totalAnalyses := allAnalyses.length
    pure (Stats.admin totalUsers totalPatients totalDoctors totalAppointments totalAnalyses
      pendingAppointments)
  else do
    let totalUsers ← User.countDocuments env {}
    let totalPatients ← User.countDocuments env { role := some "patient" }
    let totalDoctors ← User.countDocuments env { role := some "doctor" }
    let totalAppointments ← Appointment.countDocuments env {}
    let totalAnalyses ← AIAnalysis.countDocuments env {}
    let pendingAppointments ← Appointment.countDocuments env { status := some "pending" }
    pure (Stats.admin totalUsers totalPatients totalDoctors totalAppointments totalAnalyses
      pendingAppointments)

/-- The admin branch on a cache miss (lines 183-233): compute, then store in the cache. -/
def adminStats (env : Env) : Eff Stats := do
  let stats ← adminCounts env
  let t ← dateNow env
  writeCache (some stats) (some t)
  pure stats

/-- The doctor branch (lines 234-288). -/
def doctorStats (env : Env) (userId : Id) : Eff Stats := do
  let useInMemory := !env.hasCount .appointments
  if useInMemory then do
    let allAppointments ← Appointment.find env { doctor := some userId }
    let myAppointments := allAppointments.length
    let pendingAppointments :=
      (allAppointments.filter fun a => decide (a.status = "pending")).length
    let completedAppointments :=
      (allAppointments.filter fun a => decide (a.status = "completed")).length
    let uniquePatients := (allAppointments.map fun a => patientKey a.patient).dedup
    let myPatients := uniquePatients.length
    let allAnalyses ← AIAnalysis.find env { doctor := some userId }
    let myAnalyses := allAnalyses.length
    pure (Stats.doctor myAppointments pendingAppointments completedAppointments myAnalyses
      myPatients)
  else do
    let myAppointments ← Appointment.countDocuments env { doctor := some userId }
    let pendingAppointments ←
      Appointment.countDocuments env { doctor := some userId, status := some "pending" }
    let completedAppointments ←
      Appointment.countDocuments env { doctor := some userId, status := some "completed" }
    let myAnalyses ← AIAnalysis.countDocuments env { doctor := some userId }
    let patients ← Appointment.distinctPatient env { doctor := some userId }
    let myPatients := patients.length
    pure (Stats.doctor myAppointments pendingAppointments completedAppointments myAnalyses
      myPatients)

/-- The patient branch (lines 289-332). -/
def patientStats (env : Env) (userId : Id) : Eff Stats := do
  let useInMemory := !env.hasCount .appointments
  if useInMemory then do
    let allAppointments ← Appointment.find env { patient := some userId }
    let myAppointments := allAppointments.length
    let now ← dateNow env
    let today := startOfDay env.tz now
    let upcomingAppointments :=
      (allAppointments.filter fun a =>
        (decide (a.status = "pending") || decide (a.status = "confirmed")) &&
          decide (a.appointmentDate ≥ today)).length
    let allReports ← Report.find env { patient := some userId }
    let myReports := allReports.length
    let allAnalyses ← AIAnalysis.find env { patient := some userId }
    let myAnalyses := allAnalyses.length
    pure (Stats.patient myAppointments upcomingAppointments myReports myAnalyses)
  else do
    let myAppointments ← Appointment.countDocuments env { patient := some userId }
    let now ← dateNow env
    let upcomingAppointments ← Appointment.countDocuments env
      { patient := some userId, statusIn := some ["pending", "confirmed"],
        appointmentDateGte := some now }
    let myReports ← Report.countDocuments env { patient := some userId }
    let myAnalyses ← AIAnalysis.countDocuments env { patient := some userId }
    pure (Stats.patient myAppointments upcomingAppointments myReports myAnalyses)

/-- The `try` block of `getDashboardStats`. -/
def getDashboardStatsTry (env : Env) (user : Identity) : Eff Response := do
  let userId := user.id
  let role := user.role
  let cached ←
    (if role = "admin" then do
      let now ← dateNow env
      let c ← readCache
      pure (if cacheFresh c now then c.data else none)
    else pure none)
  match cached with
  | some data => pure (.stats data)
  | none =>
    let stats ←
      (if role = "admin" then adminStats env
      else if role = "doctor" then doctorStats env userId
      else if role = "patient" then patientStats env userId
      else pure Stats.empty)
    pure (.stats stats)

def getDashboardStats (env : Env) (user : Identity) : World → Response × World :=
  handle (getDashboardStatsTry env user)

/-! ## `getHealthTrends` -/

/-- JavaScript `s || d` on a string-or-absent value. -/
def orString (s : Option String) (d : String) : String :=
  match s with
  | some v => if v ≠ "" then v else d
  | none => d

/-- JavaScript `n || d` on a number-or-absent value. -/
def orInt (n : Option Int) (d : Int) : Int :=
  match n with
  | some v => if v ≠ 0 then v else d
  | none => d

/-- JavaScript `n || null` on a number-or-absent value. -/
def orNull (n : Option Int) : Option Int :=
  match n with
  | some v => if v ≠ 0 then some v else none
  | none => none

/-- JavaScript `n || d` on a length-or-absent value. -/
def orNat (n : Option Nat) (d : Nat) : Nat :=
  match n with
  | some v => if v ≠ 0 then v else d
  | none => d

/-- The object built for one analysis by the `map` callback of `getHealthTrends`. -/
def trendPoint (analysis : AIAnalysis) : TrendPoint :=
  { date := analysis.createdAt
    severity := orString (analysis.aiResponse.bind fun r => r.severity) "low"
    confidence := orInt (analysis.aiResponse.bind fun r => r.confidence) 0
    accuracy := orNull analysis.accuracy
    diagnosisCount :=
      orNat ((analysis.aiResponse.bind fun r => r.possibleDiagnosis).map List.length) 0 }

/-- The comparator order of `analyses.sort((a, b) => new Date(a.createdAt) - new
Date(b.createdAt))`: `a` may stay before `b` when the difference is not positive. -/
def createdAtLe (a b : AIAnalysis) : Prop := a.createdAt ≤ b.createdAt

instance : DecidableRel createdAtLe := fun a b => Int.decLe a.createdAt b.createdAt

/-- JavaScript `Array.prototype.sort` with that comparator: a stable sort, oldest first. -/
def sortByCreatedAt (analyses : List AIAnalysis) : List AIAnalysis :=
  analyses.insertionSort createdAtLe

/-- The `try` block of `getHealthTrends`. -/
def getHealthTrendsTry (env : Env) (user : Identity) : Eff Response := do
  let userId := user.id
  let role := user.role
  let analyses ←
    (if role = "admin" then AIAnalysis.find env {}
    else AIAnalysis.find env { patient := some userId })
  let sorted := sortByCreatedAt analyses
  let trends := sorted.map trendPoint
  pure (.trends trends)

def getHealthTrends (env : Env) (user : Identity) : World → Response × World :=
  handle (getHealthTrendsTry env user)

/-! ## Reference quantities

What the specification says each branch reports, written over the contents of the store, and
the side conditions under which a request runs. -/

/-- No data-store call fails. -/
def Env.noFault (env : Env) : Prop := ∀ (log : List Entry) (c : Call), env.fault log c = false

/-- The store is uniform for the admin branch: when `User` has `countDocuments`, so have
`Appointment` and `AIAnalysis`. -/
def Env.adminCapable (env : Env) : Prop :=
  env.hasCount .users = true →
    env.hasCount .appointments = true ∧ env.hasCount .analyses = true

/-- The store is uniform for the doctor branch: when `Appointment` has `countDocuments`, it
also has `distinct`, and `AIAnalysis` has `countDocuments`. -/
def Env.doctorCapable (env : Env) : Prop :=
  env.hasCount .appointments = true →
    env.hasCount .analyses = true ∧ env.hasDistinct .appointments = true

/-- The admin aggregate counts of the contents, as the specification lists them. -/
def adminTotals (db : DB) : Stats :=
  .admin db.users.length
    (db.users.countP fun u => decide (u.role = "patient"))
    (db.users.countP fun u => decide (u.role = "doctor"))
    db.appointments.length
    db.analyses.length
    (db.appointments.countP fun a => decide (a.status = "pending"))

/-- The number of distinct patient identifiers among the appointments whose doctor is
`doctorId`. -/
def distinctPatientCount (db : DB) (doctorId : Id) : Nat :=
  (((db.appointments.filter fun a => decide (a.doctor.id = doctorId)).map
    fun a => a.patient.id).dedup).length

/-- The `totalPatients` field of a stats object, when it has one (the doctor shape). -/
def Stats.totalPatients? : Stats → Option Nat
  | .doctor _ _ _ _ n => some n
  | _ => none

/-- The doctor-scoped counts of the contents, as the specification lists them. -/
def doctorTotals (db : DB) (doctorId : Id) : Stats :=
  .doctor
    (db.appointments.countP fun a => decide (a.doctor.id = doctorId))
    (db.appointments.countP fun a =>
      decide (a.doctor.id = doctorId) && decide (a.status = "pending"))
    (db.appointments.countP fun a =>
      decide (a.doctor.id = doctorId) && decide (a.status = "completed"))
    (db.analyses.countP fun a => decide (a.doctor.id = doctorId))
    (distinctPatientCount db doctorId)

/-- The number of a patient's appointments that are pending or confirmed and dated on or
after the start of the current day, as the specification defines `upcomingAppointments`. -/
def upcomingCount (tz now : Int) (db : DB) (patientId : Id) : Nat :=
  db.appointments.countP fun a =>
    decide (a.patient.id = patientId) &&
      (decide (a.status = "pending") || decide (a.status = "confirmed")) &&
      decide (startOfDay tz now ≤ a.appointmentDate)

/-- The patient-scoped counts of the contents at instant `now`, as the specification lists
them. -/
def patientTotals (tz now : Int) (db : DB) (patientId : Id) : Stats :=
  .patient
    (db.appointments.countP fun a => decide (a.patient.id = patientId))
    (upcomingCount tz now db patientId)
    (db.reports.countP fun r => decide (r.patient.id = patientId))
    (db.analyses.countP fun a => decide (a.patient.id = patientId))

/-- The analyses the store returns to `getHealthTrends` for a caller: every record for an
admin, the records matching `{ patient: userId }` otherwise. -/
def analysesFound (user : Identity) (db : DB) : List AIAnalysis :=
  if user.role = "admin" then db.analyses
  else db.analyses.filter fun a => decide (a.patient.id = user.id)

instance : IsTotal AIAnalysis createdAtLe := ⟨fun a b => Int.le_total a.createdAt b.createdAt⟩

instance : IsTrans AIAnalysis createdAtLe :=
  ⟨fun a b c (h₁ : a.createdAt ≤ b.createdAt) (h₂ : b.createdAt ≤ c.createdAt) =>
    Int.le_trans h₁ h₂⟩

/-- A computation that only appends to the call log. -/
def Eff.Grows {α : Type} (m : Eff α) : Prop :=
  ∀ w, ∃ es, (m w).2.calls = w.calls ++ es

/-- A computation that issues at least one data-store call. -/
def Eff.Calls {α : Type} (m : Eff α) : Prop :=
  ∀ w, ∃ e es, (m w).2.calls = w.calls ++ e :: es

/-- A computation that leaves the cache alone and throws whenever one of the calls it
issued failed. -/
def Eff.Reads {α : Type} (m : Eff α) : Prop :=
  ∀ w, ∃ es, (m w).2.calls = w.calls ++ es ∧ (m w).2.cache = w.cache ∧
    ((∃ e ∈ es, e.failed = true) → ∃ err, (m w).1 = .error err)

/-- A fresh process: empty cache, nothing logged, clock never read. -/
def World.start (db : DB) : World := { db := db, cache := statsCache, calls := [], reads := 0 }

/-- The states of the process: it starts with an empty cache, and from then on requests
are handled (`getDashboardStats` for any caller against any surroundings, `getHealthTrends`,
`deleteUser`) and `clearStatsCache` is called, in any order. -/
inductive Reachable : World → Prop where
  | start (db : DB) : Reachable (World.start db)
  | stats (env : Env) (user : Identity) {w : World} :
      Reachable w → Reachable (getDashboardStats env user w).2
  | clear {w : World} : Reachable w → Reachable (clearStatsCache w)
  | trends (env : Env) (user : Identity) {w : World} :
      Reachable w → Reachable (getHealthTrends env user w).2
  | delete (env : Env) (paramsId : Id) (user : Identity) {w : World} :
      Reachable w → Reachable (deleteUser env paramsId user w).2

/-- The snapshot invariant: `data` and `timestamp` are both `null` or both set, and `ttl`
is 300000 ms. -/
def StatsCache.Consistent (c : StatsCache) : Prop :=
  ((c.data = none ∧ c.timestamp = none) ∨ (∃ s t, c.data = some s ∧ c.timestamp = some t)) ∧
    c.ttl = 300000

/-- A computation whose data-store calls are, in order, among those of `plan`, each used
at most as often as `plan` lists it. -/
def Eff.Follows {α : Type} (m : Eff α) (plan : List Call) : Prop :=
  ∀ w, ∃ es, (m w).2.calls = w.calls ++ es ∧ (es.map Entry.call).Sublist plan

/-- The enumeration calls of `getDashboardStats` for a caller on a store without
`countDocuments`: one `find` per collection the role's branch reads. -/
def findPlan (user : Identity) : List Call :=
  if user.role = "admin" then
    [⟨.users, .find, {}⟩, ⟨.appointments, .find, {}⟩, ⟨.analyses, .find, {}⟩]
  else if user.role = "doctor" then
    [⟨.appointments, .find, { doctor := some user.id }⟩,
     ⟨.analyses, .find, { doctor := some user.id }⟩]
  else if user.role = "patient" then
    [⟨.appointments, .find, { patient := some user.id }⟩,
     ⟨.reports, .find, { patient := some user.id }⟩,
     ⟨.analyses, .find, { patient := some user.id }⟩]
  else []

/-! ## Sample data -/

def idA : Id := ⟨"A", by decide⟩
def idD : Id := ⟨"D", by decide⟩
def idP1 : Id := ⟨"P1", by decide⟩
def idP2 : Id := ⟨"P2", by decide⟩

def adminUser : Identity := ⟨idA, "admin"⟩
def doctorUser : Identity := ⟨idD, "doctor"⟩
def patientUser : Identity := ⟨idP1, "patient"⟩
def guestUser : Identity := ⟨idP2, "guest"⟩

/-- An enumeration-only store (no `countDocuments`, no `distinct`) that never fails, with
the clock reading `base` at every read and local time equal to UTC. -/
def envInMemory (base : Int) : Env :=
  { hasCount := fun _ => false, hasDistinct := fun _ => false, fault := fun _ _ => false,
    clock := fun _ => base, tz := 0 }

/-- A store with `countDocuments` and `distinct` on every model that never fails, with the
clock reading `base` at every read and local time equal to UTC. -/
def envCounting (base : Int) : Env :=
  { hasCount := fun _ => true, hasDistinct := fun _ => true, fault := fun _ _ => false,
    clock := fun _ => base, tz := 0 }

/-- Like `envInMemory`, but every call on the analyses collection fails. -/
def envAnalysesDown (base : Int) : Env :=
  { envInMemory base with fault := fun _ c => decide (c.coll = .analyses) }

/-- The instant `h` hours into the `n`-th day after the epoch (UTC), in milliseconds;
day 19884 is 2024-06-10. -/
def atDay (n h : Int) : Int := n * msPerDay + h * 3600000

/-- One admin and one patient, nothing else. -/
def dbTwoUsers : DB :=
  { users := [⟨idA, "admin"⟩, ⟨idP1, "patient"⟩], appointments := [], analyses := [],
    reports := [] }

/-- Patient P1 has a pending appointment on 2024-06-10, a pending one on 2024-06-09 and a
cancelled one on 2024-06-11. -/
def dbJune : DB :=
  { users := [⟨idD, "doctor"⟩, ⟨idP1, "patient"⟩],
    appointments :=
      [⟨.plain idD, .plain idP1, "pending", atDay 19884 0⟩,
       ⟨.plain idD, .plain idP1, "pending", atDay 19883 0⟩,
       ⟨.plain idD, .plain idP1, "cancelled", atDay 19885 0⟩],
    analyses := [], reports := [] }

/-- Patient P1 has one confirmed appointment at 09:00 on 2024-06-10. -/
def dbMorning : DB :=
  { users := [⟨idD, "doctor"⟩, ⟨idP1, "patient"⟩],
    appointments := [⟨.plain idD, .plain idP1, "confirmed", atDay 19884 9⟩],
    analyses := [], reports := [] }

/-- Doctor D has two appointments with patient P1 (one held as a plain identifier, one as a
populated record) and one with patient P2; doctor A has one with patient P1. -/
def dbDoctor : DB :=
  { users := [],
    appointments :=
      [⟨.plain idD, .plain idP1, "pending", 0⟩,
       ⟨.plain idD, .populated idP1, "completed", 0⟩,
       ⟨.populated idD, .plain idP2, "pending", 0⟩,
       ⟨.plain idA, .plain idP1, "pending", 0⟩],
    analyses := [], reports := [] }

/-- Three analyses made by doctor D for patient P1, stored newest first. -/
def dbTrends : DB :=
  { users := [], appointments := [],
    analyses :=
      [⟨.plain idD, .plain idP1, 30, some ⟨some "high", some 90, some ["flu", "cold"]⟩, some 80⟩,
       ⟨.plain idD, .plain idP1, 10, none, none⟩,
       ⟨.plain idD, .plain idP1, 20, some ⟨none, none, none⟩, none⟩],
    reports := [] }

/-- A world whose cache holds a snapshot taken at instant `t`. -/
def World.cachedAt (db : DB) (snapshot : Stats) (t : Int) : World :=
  { db := db, cache := { statsCache with data := some snapshot, timestamp := some t },
    calls := [], reads := 0 }

/-- The world after the first admin call of a process, made while the clock reads `0`. -/
def worldStampedZero : World :=
  (getDashboardStats (envInMemory 0) adminUser (World.start dbTwoUsers)).2

/-- The world after the admin has loaded the dashboard at instant 1000 and has then deleted
patient P1 at instant 2000. -/
def worldAfterDelete : World :=
  (deleteUser (envInMemory 2000) idP1 adminUser
    (getDashboardStats (envInMemory 1000) adminUser (World.start dbTwoUsers)).2).2

end UserController

/-!
# Log redaction (`server/utils/logger.js`)

A shallow embedding of `sanitizeData`, which `formatLog` applies to the context of every log
entry before it is printed. The function is embedded twice:

* `sanitizeHeap` follows the code as it runs on objects held by reference: `{ ...data }`
  allocates a new object, and the `for`-`in` loop assigns to that copy only;
* `sanitizeData` on `JsVal` is the function on finite trees that this computes.

The built-in `String.prototype.toLowerCase` is a parameter of both, so that every statement
holds for the case mapping of the language, whatever it does to a character.

`sanitizeHeap_spec` connects the two: on every finite acyclic input the run returns, extends
memory without touching an existing object, and yields a value that stands for the sanitized
tree.
-/

namespace Logger

/-- A value that is not an object: `typeof` is not `"object"`, or it is `null`. -/
inductive Prim where
  | null
  | undefined
  | bool (b : Bool)
  | num (n : Int)
  | str (s : String)
  deriving DecidableEq

mutual
/-- A finite, acyclic JavaScript value. An array is an object whose properties are its
indices. -/
inductive JsVal where
  | prim (p : Prim)
  | object (isArray : Bool) (props : Props)
/-- The own enumerable properties of an object, in enumeration order. -/
inductive Props where
  | nil
  | cons (key : String) (value : JsVal) (rest : Props)
end

/-- The array `sensitiveFields` of `sanitizeData`. -/
def sensitiveFields : List String :=
  ["password", "token", "secret", "authorization", "auth"]

/-- Whether the characters `s` begin with the characters `sub`. -/
def beginsWith : List Char → List Char → Bool
  | _, [] => true
  | [], _ :: _ => false
  | c :: cs, d :: ds => c == d && beginsWith cs ds

/-- JavaScript `s.includes(sub)`, on the characters of the two strings. -/
def includes : List Char → List Char → Bool
  | [], sub => sub.isEmpty
  | c :: cs, sub => beginsWith (c :: cs) sub || includes cs sub

/-- The test `sensitiveFields.some((field) => lowerKey.includes(field))` on
`lowerKey = key.toLowerCase()`. The built-in `String.prototype.toLowerCase` is not part of
the sources and is taken as the parameter `toLowerCase`. -/
def isSensitive (toLowerCase : String → String) (key : String) : Bool :=
  sensitiveFields.any fun field => includes (toLowerCase key).toList field.toList

/-- The replacement value `"[REDACTED]"`. -/
def redacted : JsVal := .prim (.str "[REDACTED]")

mutual
/-- The function `sanitizeData`: a non-object is returned as it is; an object is copied
(`{ ...data }`, which yields a plain object also for an array) and its properties are
rewritten one by one. -/
def sanitizeData (toLowerCase : String → String) : JsVal → JsVal
  | .prim p => .prim p
  | .object _ props => .object false (sanitizeProps toLowerCase props)
/-- The `for (const key in sanitized)` loop of `sanitizeData`: a sensitive key gets the
replacement value, an object under another key is sanitized recursively, any other value
stays. -/
def sanitizeProps (toLowerCase : String → String) : Props → Props
  | .nil => .nil
  | .cons key (.prim p) rest =>
    if isSensitive toLowerCase key then .cons key redacted (sanitizeProps toLowerCase rest)
    else .cons key (.prim p) (sanitizeProps toLowerCase rest)
  | .cons key (.object isArray props) rest =>
    if isSensitive toLowerCase key then .cons key redacted (sanitizeProps toLowerCase rest)
    else
      .cons key (sanitizeData toLowerCase (.object isArray props))
        (sanitizeProps toLowerCase rest)
end

/-- The first property named `key`, as `obj[key]` reads it. -/
def Props.get? : Props → String → Option JsVal
  | .nil, _ => none
  | .cons k v rest, key => if k = key then some v else rest.get? key

/-- The value found by following the property names of `path` from `v`. -/
def JsVal.at? : JsVal → List String → Option JsVal
  | v, [] => some v
  | .prim _, _ :: _ => none
  | .object _ ps, key :: path =>
    match ps.get? key with
    | some v => v.at? path
    | none => none

/-- A key as the claim describes the keys to hide: its lower-cased name contains one of
`password`, `token`, `secret`, `authorization`, `auth`. -/
def SensitiveName (toLowerCase : String → String) (key : String) : Prop :=
  ∃ field ∈ ["password", "token", "secret", "authorization", "auth"],
    ∃ before after : List Char, before ++ field.toList ++ after = (toLowerCase key).toList

mutual
/-- Two values differ at most in what is stored under keys with a sensitive name. -/
def AgreeOutside (toLowerCase : String → String) : JsVal → JsVal → Prop
  | .prim p, .prim q => p = q
  | .object a ps, .object b qs => a = b ∧ AgreeOutsideProps toLowerCase ps qs
  | .prim _, .object _ _ => False
  | .object _ _, .prim _ => False
/-- Two property lists have the same keys in the same order and differ at most in what is
stored under keys with a sensitive name. -/
def AgreeOutsideProps (toLowerCase : String → String) : Props → Props → Prop
  | .nil, .nil => True
  | .cons k v r, .cons k' v' r' =>
    k = k' ∧ (SensitiveName toLowerCase k ∨ AgreeOutside toLowerCase v v') ∧
      AgreeOutsideProps toLowerCase r r'
  | .nil, .cons _ _ _ => False
  | .cons _ _ _, .nil => False
end

/-! ## `sanitizeData` on objects held by reference -/

/-- A value as the running program holds it: a non-object, or a reference to an object. -/
inductive HVal where
  | prim (p : Prim)
  | ref (addr : Nat)
  deriving DecidableEq

/-- An object in memory: whether it is an array, and its own enumerable properties in
enumeration order. -/
structure HObj where
  isArray : Bool
  props : List (String × HVal)
  deriving DecidableEq

/-- The objects that exist, each at the position that is its address. -/
abbrev Heap := List HObj

/-- The read `obj[key]` of an own property. -/
def readProp : List (String × HVal) → String → Option HVal
  | [], _ => none
  | (k, v) :: rest, key => if k = key then some v else readProp rest key

/-- The assignment `obj[key] = v`: an existing property is overwritten in place, a new one is
added at the end. -/
def writeProp : List (String × HVal) → String → HVal → List (String × HVal)
  | [], key, v => [(key, v)]
  | (k, x) :: rest, key, v =>
    if k = key then (k, v) :: rest else (k, x) :: writeProp rest key v

/-- The read `obj[key]` through a reference. -/
def Heap.read (h : Heap) (addr : Nat) (key : String) : Option HVal :=
  match h[addr]? with
  | some o => readProp o.props key
  | none => none

/-- The assignment `obj[key] = v` through a reference. -/
def Heap.write (h : Heap) (addr : Nat) (key : String) (v : HVal) : Heap :=
  match h[addr]? with
  | some o => h.set addr { o with props := writeProp o.props key v }
  | none => h

/-- The loop `for (const key in sanitized)` of `sanitizeData`, `sanitized` being the object
at address `s` and `recur` the recursive call. -/
def sanitizeLoop (toLowerCase : String → String)
    (recur : Heap → HVal → Option (HVal × Heap)) (s : Nat) : List String → Heap → Option Heap
  | [], h => some h
  | key :: keys, h =>
    if isSensitive toLowerCase key then
      sanitizeLoop toLowerCase recur s keys (h.write s key (.prim (.str "[REDACTED]")))
    else
      match h.read s key with
      | some (.ref b) =>
        match recur h (.ref b) with
        | some (v, h') => sanitizeLoop toLowerCase recur s keys (h'.write s key v)
        | none => none
      | _ => sanitizeLoop toLowerCase recur s keys h

/-- The function `sanitizeData` as it runs: a non-object is returned as it is; for an object
a new plain object with the same properties is allocated (`{ ...data }`) and the loop
assigns to it. `fuel` bounds the depth of the recursion. -/
def sanitizeHeap (toLowerCase : String → String) : Nat → Heap → HVal → Option (HVal × Heap)
  | _, h, .prim p => some (.prim p, h)
  | 0, _, .ref _ => none
  | fuel + 1, h, .ref a =>
    match h[a]? with
    | none => none
    | some data =>
      match sanitizeLoop toLowerCase (sanitizeHeap toLowerCase fuel) h.length
          (data.props.map Prod.fst) (h ++ [{ isArray := false, props := data.props }]) with
      | some h' => some (.ref h.length, h')
      | none => none

mutual
/-- The number of nodes of a value. -/
def JsVal.size : JsVal → Nat
  | .prim _ => 1
  | .object _ ps => ps.size + 1
/-- The number of nodes of the values of a property list. -/
def Props.size : Props → Nat
  | .nil => 0
  | .cons _ v rest => v.size + rest.size
end

mutual
/-- In memory `h`, the value `v` stands for the tree `t`: following references from `v`
(all of them at addresses from `lo` on) one reads exactly `t`, and no object has two
properties of the same name. -/
def Represents (h : Heap) (lo : Nat) : HVal → JsVal → Prop
  | .prim p, .prim q => p = q
  | .ref a, .object isArray ps =>
    lo ≤ a ∧ ∃ o, h[a]? = some o ∧ o.isArray = isArray ∧ (o.props.map Prod.fst).Nodup ∧
      RepresentsProps h lo o.props ps
  | .prim _, .object _ _ => False
  | .ref _, .prim _ => False
/-- In memory `h`, the properties `fs` stand for the property trees `ps`. -/
def RepresentsProps (h : Heap) (lo : Nat) : List (String × HVal) → Props → Prop
  | [], .nil => True
  | (k, v) :: fs, .cons key t rest => k = key ∧ Represents h lo v t ∧ RepresentsProps h lo fs rest
  | [], .cons _ _ _ => False
  | _ :: _, .nil => False
end

/-- A lower-casing function for the examples: it maps the letters `A` to `Z`, which is what
`toLowerCase` does on the names used in the examples. -/
def lowerAscii (s : String) : String := String.mk (s.toList.map Char.toLower)

/-- A log context held in memory: the object at address 1 is
`{ user: <object 0>, Authorization: "Bearer b", client_secret: "s", n: 0 }` and the object at
address 0 is `{ email: "a@b", userPassword: "x", accessToken: "t", auth: "k" }`. -/
def sampleHeap : Heap :=
  [⟨false, [("email", .prim (.str "a@b")), ("userPassword", .prim (.str "x")),
      ("accessToken", .prim (.str "t")), ("auth", .prim (.str "k"))]⟩,
   ⟨false, [("user", .ref 0), ("Authorization", .prim (.str "Bearer b")),
      ("client_secret", .prim (.str "s")), ("n", .prim (.num 0))]⟩]

/-- The tree of the object at address 1 of `sampleHeap`. -/
def sampleTree : JsVal :=
  .object false
    (.cons "user"
      (.object false
        (.cons "email" (.prim (.str "a@b"))
          (.cons "userPassword" (.prim (.str "x"))
            (.cons "accessToken" (.prim (.str "t")) (.cons "auth" (.prim (.str "k")) .nil)))))
      (.cons "Authorization" (.prim (.str "Bearer b"))
        (.cons "client_secret" (.prim (.str "s")) (.cons "n" (.prim (.num 0)) .nil))))

end Logger

namespace UserController

/-! ## Theorems: running `Eff` computations -/

@[simp] theorem Eff.run_pure {α : Type} (a : α) (w : World) :
    (Pure.pure a : Eff α) w = (.ok a, w) := rfl

@[simp] theorem Eff.run_bind {α β : Type} (m : Eff α) (f : α → Eff β) (w : World) :
    (m >>= f) w = match m w with
      | (.ok a, w') => f a w'
      | (.error e, w') => (.error e, w') := rfl

/-! ## Theorems: read-only computations -/

theorem Eff.Reads.grows {α : Type} {m : Eff α} (h : m.Reads) : m.Grows := fun w =>
  let ⟨es, h1, _⟩ := h w
  ⟨es, h1⟩

theorem Eff.reads_pure {α : Type} (a : α) : (Pure.pure a : Eff α).Reads := fun w =>
  ⟨[], by simp⟩

theorem Eff.reads_raise {α : Type} (e : Err) : (raise e : Eff α).Reads := fun w =>
  ⟨[], by simp [raise]⟩

theorem Eff.reads_dateNow (env : Env) : (dateNow env).Reads := fun w =>
  ⟨[], by simp [dateNow]⟩

theorem Eff.reads_issue {α : Type} (env : Env) (c : Call) (answer : DB → α × DB) :
    (issue env c answer).Reads := fun w => by
  unfold issue
  split
  · exact ⟨[⟨c, true⟩], by simp⟩
  · exact ⟨[⟨c, false⟩], by simp⟩

theorem Eff.reads_bind {α β : Type} {m : Eff α} {f : α → Eff β} (hm : m.Reads)
    (hf : ∀ a, (f a).Reads) : (m >>= f).Reads := fun w => by
  obtain ⟨es, h1, h2, h3⟩ := hm w
  rw [Eff.run_bind]
  rcases hmw : m w with ⟨r, w'⟩
  rw [hmw] at h1 h2 h3
  cases r with
  | error e => exact ⟨es, h1, h2, fun _ => ⟨e, rfl⟩⟩
  | ok a =>
    obtain ⟨es', g1, g2, g3⟩ := hf a w'
    refine ⟨es ++ es', ?_, ?_, ?_⟩
    · simp only at h1 ⊢; rw [g1, h1, List.append_assoc]
    · simp only at h2 ⊢; rw [g2, h2]
    · rintro ⟨e, he, hfail⟩
      rcases List.mem_append.1 he with he | he
      · obtain ⟨err, herr⟩ := h3 ⟨e, he, hfail⟩
        simp at herr
      · exact g3 ⟨e, he, hfail⟩

theorem Eff.reads_ite {α : Type} {c : Prop} [Decidable c] {m n : Eff α} (hm : m.Reads)
    (hn : n.Reads) : (if c then m else n).Reads := by
  split
  · exact hm
  · exact hn

theorem Eff.calls_issue_bind {α β : Type} (env : Env) (c : Call) (answer : DB → α × DB)
    {f : α → Eff β} (hf : ∀ a, (f a).Grows) : (issue env c answer >>= f).Calls := fun w => by
  rw [Eff.run_bind]
  by_cases hflt : env.fault w.calls c = true
  · exact ⟨⟨c, true⟩, [], by simp [issue, hflt]⟩
  · obtain ⟨es, h⟩ := hf (answer w.db).1
      { w with db := (answer w.db).2, calls := w.calls ++ [⟨c, false⟩] }
    exact ⟨⟨c, false⟩, es, by simp [issue, hflt, h]⟩

theorem reads_User_find (env : Env) (q : Query) : (User.find env q).Reads :=
  Eff.reads_issue _ _ _

theorem reads_Appointment_find (env : Env) (q : Query) : (Appointment.find env q).Reads :=
  Eff.reads_issue _ _ _

theorem reads_AIAnalysis_find (env : Env) (q : Query) : (AIAnalysis.find env q).Reads :=
  Eff.reads_issue _ _ _

theorem reads_Report_find (env : Env) (q : Query) : (Report.find env q).Reads :=
  Eff.reads_issue _ _ _

theorem reads_User_countDocuments (env : Env) (q : Query) :
    (User.countDocuments env q).Reads :=
  Eff.reads_ite (Eff.reads_issue _ _ _) (Eff.reads_raise _)

theorem reads_Appointment_countDocuments (env : Env) (q : Query) :
    (Appointment.countDocuments env q).Reads :=
  Eff.reads_ite (Eff.reads_issue _ _ _) (Eff.reads_raise _)

theorem reads_AIAnalysis_countDocuments (env : Env) (q : Query) :
    (AIAnalysis.countDocuments env q).Reads :=
  Eff.reads_ite (Eff.reads_issue _ _ _) (Eff.reads_raise _)

theorem reads_Report_countDocuments (env : Env) (q : Query) :
    (Report.countDocuments env q).Reads :=
  Eff.reads_ite (Eff.reads_issue _ _ _) (Eff.reads_raise _)

theorem reads_Appointment_distinctPatient (env : Env) (q : Query) :
    (Appointment.distinctPatient env q).Reads :=
  Eff.reads_ite (Eff.reads_issue _ _ _) (Eff.reads_raise _)

theorem adminCounts_reads (env : Env) : (adminCounts env).Reads := by
  unfold adminCounts
  refine Eff.reads_ite ?_ ?_
  · refine Eff.reads_bind (reads_User_find _ _) fun _ => ?_
    refine Eff.reads_bind (reads_Appointment_find _ _) fun _ => ?_
    refine Eff.reads_bind (reads_AIAnalysis_find _ _) fun _ => ?_
    exact Eff.reads_pure _
  · refine Eff.reads_bind (reads_User_countDocuments _ _) fun _ => ?_
    refine Eff.reads_bind (reads_User_countDocuments _ _) fun _ => ?_
    refine Eff.reads_bind (reads_User_countDocuments _ _) fun _ => ?_
    refine Eff.reads_bind (reads_Appointment_countDocuments _ _) fun _ => ?_
    refine Eff.reads_bind (reads_AIAnalysis_countDocuments _ _) fun _ => ?_
    refine Eff.reads_bind (reads_Appointment_countDocuments _ _) fun _ => ?_
    exact Eff.reads_pure _

theorem Eff.calls_bind {α β : Type} {m : Eff α} {f : α → Eff β} (hm : m.Calls)
    (hf : ∀ a, (f a).Grows) : (m >>= f).Calls := fun w => by
  obtain ⟨e, es, h⟩ := hm w
  rw [Eff.run_bind]
  rcases hmw : m w with ⟨r, w'⟩
  rw [hmw] at h
  cases r with
  | error err => exact ⟨e, es, h⟩
  | ok a =>
    obtain ⟨es', h'⟩ := hf a w'
    exact ⟨e, es ++ es', by simp only at h ⊢; rw [h', h]; simp⟩

theorem adminCounts_calls (env : Env) : (adminCounts env).Calls := by
  unfold adminCounts
  cases hU : env.hasCount .users
  · simp only [Bool.not_false, if_true]
    refine Eff.calls_issue_bind _ _ _ fun _ => Eff.Reads.grows ?_
    refine Eff.reads_bind (reads_Appointment_find _ _) fun _ => ?_
    refine Eff.reads_bind (reads_AIAnalysis_find _ _) fun _ => ?_
    exact Eff.reads_pure _
  · simp only [Bool.not_true, User.countDocuments, hU, if_true]
    simp only [Bool.false_eq_true, if_false]
    refine Eff.calls_issue_bind _ _ _ fun _ => Eff.Reads.grows ?_
    refine Eff.reads_bind (Eff.reads_issue _ _ _) fun _ => ?_
    refine Eff.reads_bind (Eff.reads_issue _ _ _) fun _ => ?_
    refine Eff.reads_bind (reads_Appointment_countDocuments _ _) fun _ => ?_
    refine Eff.reads_bind (reads_AIAnalysis_countDocuments _ _) fun _ => ?_
    refine Eff.reads_bind (reads_Appointment_countDocuments _ _) fun _ => ?_
    exact Eff.reads_pure _

theorem getDashboardStats_admin_miss (env : Env) (user : Identity) (w : World)
    (hrole : user.role = "admin") (hmiss : cacheFresh w.cache (env.clock w.reads) = false) :
    getDashboardStats env user w =
      handle (adminStats env >>= fun s => pure (.stats s)) { w with reads := w.reads + 1 } := by
  simp [getDashboardStats, handle, getDashboardStatsTry, hrole, dateNow, readCache, hmiss]

/-- The admin branch, run from `w`: either the counting block throws and nothing else
happens, or its result is returned and stored together with the next clock reading. -/
theorem adminStats_run (env : Env) (w : World) :
    adminStats env w =
      match adminCounts env w with
      | (.ok s, w') =>
        (.ok s, { w' with
          cache := { w'.cache with data := some s, timestamp := some (env.clock w'.reads) },
          reads := w'.reads + 1 })
      | (.error e, w') => (.error e, w') := by
  simp only [adminStats, Eff.run_bind, Eff.run_pure, dateNow, writeCache]
  rcases adminCounts env w with ⟨r, w'⟩
  cases r <;> rfl

/-- An admin call that misses the cache, run from `w`. -/
theorem getDashboardStats_admin_miss_run (env : Env) (user : Identity) (w : World)
    (hrole : user.role = "admin") (hmiss : cacheFresh w.cache (env.clock w.reads) = false) :
    getDashboardStats env user w =
      match adminCounts env { w with reads := w.reads + 1 } with
      | (.ok s, w') =>
        (.stats s, { w' with
          cache := { w'.cache with data := some s, timestamp := some (env.clock w'.reads) },
          reads := w'.reads + 1 })
      | (.error e, w') => (.next e, w') := by
  rw [getDashboardStats_admin_miss env user w hrole hmiss]
  simp only [handle, Eff.run_bind, adminStats_run, Eff.run_pure]
  rcases adminCounts env { w with reads := w.reads + 1 } with ⟨r, w'⟩
  cases r <;> rfl

theorem Query.matchesUser_all : ({} : Query).matchesUser = fun _ => true := by
  funext u; simp [Query.matchesUser]

theorem Query.matchesAppointment_all : ({} : Query).matchesAppointment = fun _ => true := by
  funext a; simp [Query.matchesAppointment]

theorem Query.matchesAnalysis_all : ({} : Query).matchesAnalysis = fun _ => true := by
  funext a; simp [Query.matchesAnalysis]

theorem Query.matchesUser_role (r : String) :
    ({ role := some r } : Query).matchesUser = fun u => decide (u.role = r) := by
  funext u; simp [Query.matchesUser]

theorem Query.matchesAppointment_status (s : String) :
    ({ status := some s } : Query).matchesAppointment = fun a => decide (a.status = s) := by
  funext a; simp [Query.matchesAppointment]

theorem adminCounts_noFault (env : Env) (w : World) (hnf : env.noFault)
    (hcap : env.adminCapable) :
    ∃ es, adminCounts env w = (.ok (adminTotals w.db), { w with calls := w.calls ++ es }) := by
  have hf : ∀ l c, env.fault l c = false := hnf
  cases hU : env.hasCount .users
  · refine ⟨[⟨⟨.users, .find, {}⟩, false⟩, ⟨⟨.appointments, .find, {}⟩, false⟩,
      ⟨⟨.analyses, .find, {}⟩, false⟩], ?_⟩
    simp [adminCounts, hU, User.find, Appointment.find, AIAnalysis.find, issue, hf,
      Query.matchesUser_all, Query.matchesAppointment_all, Query.matchesAnalysis_all,
      adminTotals, List.countP_eq_length_filter]
  · obtain ⟨hA, hN⟩ := hcap hU
    refine ⟨[⟨⟨.users, .countDocuments, {}⟩, false⟩,
      ⟨⟨.users, .countDocuments, { role := some "patient" }⟩, false⟩,
      ⟨⟨.users, .countDocuments, { role := some "doctor" }⟩, false⟩,
      ⟨⟨.appointments, .countDocuments, {}⟩, false⟩,
      ⟨⟨.analyses, .countDocuments, {}⟩, false⟩,
      ⟨⟨.appointments, .countDocuments, { status := some "pending" }⟩, false⟩], ?_⟩
    simp [adminCounts, hU, hA, hN, User.countDocuments, Appointment.countDocuments,
      AIAnalysis.countDocuments, issue, hf, Query.matchesUser_all,
      Query.matchesAppointment_all, Query.matchesAnalysis_all, Query.matchesUser_role,
      Query.matchesAppointment_status, adminTotals, List.countP_eq_length_filter]

theorem cacheFresh_expired (c : StatsCache) (now t : Int) (ht : c.timestamp = some t)
    (hexp : c.ttl ≤ now - t) : cacheFresh c now = false := by
  simp [cacheFresh, ht]
  intro _ _
  exact hexp

/-! ## Theorems: role branches on a healthy store -/

theorem Id.str_injective : Function.Injective Id.str := by
  intro a b h
  cases a; cases b
  cases h
  rfl

theorem patientKey_eq (r : Ref) : patientKey r = r.id.str := by
  cases r with
  | plain i => simp [patientKey, Ref.id]
  | populated i => simp [patientKey, Ref.id, i.nonempty]

theorem Query.matchesAppointment_doctor (d : Id) :
    ({ doctor := some d } : Query).matchesAppointment = fun a => decide (a.doctor.id = d) := by
  funext a; simp [Query.matchesAppointment]

theorem dedup_patientKey_length (l : List Appointment) :
    ((l.map fun a => patientKey a.patient).dedup).length =
      ((l.map fun a => a.patient.id).dedup).length := by
  have h : (l.map fun a => patientKey a.patient) = (l.map fun a => a.patient.id).map Id.str := by
    simp [patientKey_eq]
  rw [h, List.dedup_map_of_injective Id.str_injective, List.length_map]

theorem Query.matchesAppointment_doctor_status (d : Id) (st : String) :
    ({ doctor := some d, status := some st } : Query).matchesAppointment =
      fun a => decide (a.doctor.id = d) && decide (a.status = st) := by
  funext a; simp [Query.matchesAppointment, Bool.and_comm]

theorem Query.matchesAnalysis_doctor (d : Id) :
    ({ doctor := some d } : Query).matchesAnalysis = fun a => decide (a.doctor.id = d) := by
  funext a; simp [Query.matchesAnalysis]

/-- A doctor call on a store that does not fail answers with the doctor-scoped counts of the
contents, on the enumeration path and on the counting path alike. -/
theorem getDashboardStats_doctor_run (env : Env) (user : Identity) (w : World)
    (hrole : user.role = "doctor") (hnf : env.noFault) (hcap : env.doctorCapable) :
    (getDashboardStats env user w).1 = .stats (doctorTotals w.db user.id) := by
  have hf : ∀ l c, env.fault l c = false := hnf
  cases hC : env.hasCount .appointments
  · simp [getDashboardStats, handle, getDashboardStatsTry, hrole, doctorStats, hC,
      Appointment.find, AIAnalysis.find, issue, hf, distinctPatientCount, doctorTotals,
      Query.matchesAppointment_doctor, Query.matchesAnalysis_doctor, dedup_patientKey_length,
      List.countP_eq_length_filter, List.filter_filter, Bool.and_comm]
  · obtain ⟨hN, hD⟩ := hcap hC
    simp [getDashboardStats, handle, getDashboardStatsTry, hrole, doctorStats, hC, hN, hD,
      Appointment.countDocuments, AIAnalysis.countDocuments, Appointment.distinctPatient,
      issue, hf, distinctPatientCount, doctorTotals, Query.matchesAppointment_doctor,
      Query.matchesAppointment_doctor_status, Query.matchesAnalysis_doctor,
      List.countP_eq_length_filter]

theorem Query.matchesAnalysis_patient (p : Id) :
    ({ patient := some p } : Query).matchesAnalysis = fun a => decide (a.patient.id = p) := by
  funext a; simp [Query.matchesAnalysis]

/-- Sorting then mapping yields dates in non-decreasing order and one trend point per
analysis. -/
theorem sortByCreatedAt_trends (analyses : List AIAnalysis) :
    (((sortByCreatedAt analyses).map trendPoint).map fun t => t.date).Sorted (· ≤ ·) ∧
      ((sortByCreatedAt analyses).map trendPoint).Perm (analyses.map trendPoint) := by
  constructor
  · have h := List.sorted_insertionSort createdAtLe analyses
    rw [List.map_map]
    exact List.Pairwise.map _ (fun a b hab => hab) h
  · exact (List.perm_insertionSort createdAtLe analyses).map trendPoint

theorem getHealthTrends_run (env : Env) (user : Identity) (w : World) (hnf : env.noFault) :
    (getHealthTrends env user w).1 =
      .trends ((sortByCreatedAt (analysesFound user w.db)).map trendPoint) := by
  have hf : ∀ l c, env.fault l c = false := hnf
  by_cases hrole : user.role = "admin"
  · simp [getHealthTrends, handle, getHealthTrendsTry, hrole, AIAnalysis.find, issue, hf,
      analysesFound, Query.matchesAnalysis_all]
  · simp [getHealthTrends, handle, getHealthTrendsTry, hrole, AIAnalysis.find, issue, hf,
      analysesFound, Query.matchesAnalysis_patient]

theorem Query.matchesAppointment_patient (p : Id) :
    ({ patient := some p } : Query).matchesAppointment = fun a => decide (a.patient.id = p) := by
  funext a; simp [Query.matchesAppointment]

theorem Query.matchesReport_patient (p : Id) :
    ({ patient := some p } : Query).matchesReport = fun r => decide (r.patient.id = p) := by
  funext r; simp [Query.matchesReport]

/-- On the enumeration path a patient call on a store that does not fail answers with the
patient-scoped counts of the contents; `upcomingAppointments` is taken from the start of the
current day. -/
theorem getDashboardStats_patient_inMemory_run (env : Env) (user : Identity) (w : World)
    (hrole : user.role = "patient") (hmem : env.hasCount .appointments = false)
    (hnf : env.noFault) :
    (getDashboardStats env user w).1 =
      .stats (patientTotals env.tz (env.clock w.reads) w.db user.id) := by
  have hf : ∀ l c, env.fault l c = false := hnf
  simp [getDashboardStats, handle, getDashboardStatsTry, hrole, patientStats, hmem,
    Appointment.find, AIAnalysis.find, Report.find, issue, hf, dateNow, patientTotals,
    upcomingCount, Query.matchesAppointment_patient, Query.matchesAnalysis_patient,
    Query.matchesReport_patient, List.countP_eq_length_filter, List.filter_filter,
    Bool.and_comm, Bool.and_assoc]

/-! ## Theorems: the cache -/

/-- C1 (code evaluated at the failing input): the first admin call of a process runs while
the clock reads `0` and fills the cache with a snapshot stamped `0`; the next admin call
comes 1000 ms later, within `ttl` and with no invalidation in between, yet it is not answered
from the cache: three more data-store calls are issued and the cache is stamped anew, because
the presence check `statsCache.timestamp &&` takes the stamp `0` for an absent one. -/
theorem zero_stamp_snapshot_not_served :
    worldStampedZero.cache =
      { statsCache with data := some (.admin 2 1 0 0 0 0), timestamp := some 0 } ∧
    (envInMemory 1000).clock worldStampedZero.reads - 0 < worldStampedZero.cache.ttl ∧
    worldStampedZero.calls.length = 3 ∧
    (getDashboardStats (envInMemory 1000) adminUser worldStampedZero).2.calls.length = 6 ∧
    (getDashboardStats (envInMemory 1000) adminUser worldStampedZero).2.cache.timestamp =
      some 1000 ∧
    getDashboardStats (envInMemory 1000) adminUser worldStampedZero ≠
      (.stats (.admin 2 1 0 0 0 0),
        { worldStampedZero with reads := worldStampedZero.reads + 1 }) := by
  decide

/-- The cache hit away from the stamp `0`: an admin call made while the cache holds a
snapshot `d` with a non-zero timestamp `t` and `now - t < ttl` answers with exactly `d`,
issues no data-store call and leaves cache and contents as they were; the only change to the
world is the one clock read. -/
theorem getDashboardStats_cache_hit (env : Env) (user : Identity) (w : World) (d : Stats)
    (t : Int) (hrole : user.role = "admin") (hd : w.cache.data = some d)
    (ht : w.cache.timestamp = some t) (ht0 : t ≠ 0)
    (hfresh : env.clock w.reads - t < w.cache.ttl) :
    getDashboardStats env user w = (.stats d, { w with reads := w.reads + 1 }) := by
  simp [getDashboardStats, handle, getDashboardStatsTry, hrole, dateNow, readCache, cacheFresh,
    hd, ht, truthyNum, ht0, hfresh]

/-- An instance of the cache hit: a snapshot stamped 1 is served at instant 299999. -/
theorem getDashboardStats_cache_hit_witness :
    getDashboardStats (envCounting 299999) adminUser
        (World.cachedAt dbTwoUsers (.admin 7 7 7 7 7 7) 1) =
      (.stats (.admin 7 7 7 7 7 7),
        { World.cachedAt dbTwoUsers (.admin 7 7 7 7 7 7) 1 with reads := 1 }) :=
  getDashboardStats_cache_hit (envCounting 299999) adminUser
    (World.cachedAt dbTwoUsers (.admin 7 7 7 7 7 7) 1) (.admin 7 7 7 7 7 7) 1 rfl rfl rfl
    (by decide) (by decide)

/-- C2: an admin call made when `now - timestamp >= ttl` (boundary included; the initial
`ttl` is 300000 ms) does not use the snapshot: it issues at least one data-store call, and
when no call fails on a uniform store it answers with the counts computed from the current
contents and stores them in the cache stamped with the clock reading taken at that
moment. -/
theorem getDashboardStats_ttl_expiry (env : Env) (user : Identity) (w : World) (t : Int)
    (hrole : user.role = "admin") (ht : w.cache.timestamp = some t)
    (hexp : w.cache.ttl ≤ env.clock w.reads - t) :
    statsCache.ttl = 300000 ∧
    (∃ e es, (getDashboardStats env user w).2.calls = w.calls ++ e :: es) ∧
    (env.noFault → env.adminCapable →
      (getDashboardStats env user w).1 = .stats (adminTotals w.db) ∧
      (getDashboardStats env user w).2.cache =
        { w.cache with
          data := some (adminTotals w.db), timestamp := some (env.clock (w.reads + 1)) }) := by
  have hmiss := cacheFresh_expired w.cache _ t ht hexp
  rw [getDashboardStats_admin_miss_run env user w hrole hmiss]
  refine ⟨by decide, ?_, ?_⟩
  · obtain ⟨e, es, h⟩ := adminCounts_calls env { w with reads := w.reads + 1 }
    rcases hrun : adminCounts env { w with reads := w.reads + 1 } with ⟨r, w'⟩
    rw [hrun] at h
    cases r <;> exact ⟨e, es, h⟩
  · intro hnf hcap
    obtain ⟨es, h⟩ := adminCounts_noFault env { w with reads := w.reads + 1 } hnf hcap
    rw [h]
    exact ⟨rfl, rfl⟩

/-- An instance of expiry at the boundary: a snapshot stamped 1 is recomputed at instant
300001, when exactly `ttl` has elapsed. -/
theorem getDashboardStats_ttl_expiry_witness :
    (getDashboardStats (envCounting 300001) adminUser
        (World.cachedAt dbTwoUsers (.admin 7 7 7 7 7 7) 1)).1 =
      .stats (adminTotals dbTwoUsers) ∧
    (getDashboardStats (envCounting 300001) adminUser
        (World.cachedAt dbTwoUsers (.admin 7 7 7 7 7 7) 1)).2.cache =
      { statsCache with data := some (adminTotals dbTwoUsers), timestamp := some 300001 } :=
  (getDashboardStats_ttl_expiry (envCounting 300001) adminUser
    (World.cachedAt dbTwoUsers (.admin 7 7 7 7 7 7) 1) 1 rfl rfl (by decide)).2.2
    (fun _ _ => rfl) (fun _ => ⟨rfl, rfl⟩)

/-- C3 (code evaluated at the failing input): the admin loads the dashboard (2 users), then
deletes patient P1 successfully; `deleteUser` leaves the cache as it was, so the next admin
call within `ttl` issues no data-store call and still reports `totalUsers = 2` although one
user is left. -/
theorem deleteUser_leaves_stale_stats :
    (deleteUser (envInMemory 2000) idP1 adminUser
      (getDashboardStats (envInMemory 1000) adminUser (World.start dbTwoUsers)).2).1 =
      .message "User deleted" ∧
    worldAfterDelete.db.users = [⟨idA, "admin"⟩] ∧
    worldAfterDelete.cache =
      { statsCache with data := some (.admin 2 1 0 0 0 0), timestamp := some 1000 } ∧
    adminTotals worldAfterDelete.db = .admin 1 0 0 0 0 0 ∧
    (getDashboardStats (envInMemory 3000) adminUser worldAfterDelete).1 =
      .stats (.admin 2 1 0 0 0 0) ∧
    (getDashboardStats (envInMemory 3000) adminUser worldAfterDelete).2.calls =
      worldAfterDelete.calls := by
  decide

/-- C4: when an admin call misses the cache and one of the data-store calls it issues
fails, the handler passes an error to `next` (no stats response) and the cache is exactly
what it was before the call. -/
theorem getDashboardStats_failure_atomic (env : Env) (user : Identity) (w : World)
    (hrole : user.role = "admin") (hmiss : cacheFresh w.cache (env.clock w.reads) = false)
    (hfail : ∃ e ∈ (getDashboardStats env user w).2.calls.drop w.calls.length,
      e.failed = true) :
    (∃ err, (getDashboardStats env user w).1 = .next err) ∧
      (getDashboardStats env user w).2.cache = w.cache := by
  rw [getDashboardStats_admin_miss_run env user w hrole hmiss] at hfail ⊢
  obtain ⟨es, h1, h2, h3⟩ := adminCounts_reads env { w with reads := w.reads + 1 }
  rcases hrun : adminCounts env { w with reads := w.reads + 1 } with ⟨r, w'⟩
  rw [hrun] at h1 h2 h3 hfail
  cases r with
  | error err => exact ⟨⟨err, rfl⟩, h2⟩
  | ok s =>
    exfalso
    simp only at h1 h3 hfail
    rw [h1, List.drop_left] at hfail
    obtain ⟨err, herr⟩ := h3 hfail
    cases herr

/-- An instance of a failing aggregation: the third `find` (on analyses) fails and the empty
cache stays empty. -/
theorem getDashboardStats_failure_atomic_witness :
    (∃ err, (getDashboardStats (envAnalysesDown 1000) adminUser
        (World.start dbTwoUsers)).1 = .next err) ∧
      (getDashboardStats (envAnalysesDown 1000) adminUser (World.start dbTwoUsers)).2.cache =
        (World.start dbTwoUsers).cache :=
  getDashboardStats_failure_atomic (envAnalysesDown 1000) adminUser (World.start dbTwoUsers)
    rfl rfl (by decide)

/-! ## Theorems: role-scoped statistics -/

/-- C5 (code evaluated at the failing input): at 10:00 on 2024-06-10, with a pending
appointment dated 2024-06-10 00:00, a pending one dated 2024-06-09 and a cancelled one dated
2024-06-11, exactly one appointment is upcoming; the enumeration path reports 1, the
`countDocuments` path reports 0 because it compares with the current instant instead of the
start of the day. -/
theorem patient_upcoming_countDocuments_path :
    upcomingCount 0 (atDay 19884 10) dbJune idP1 = 1 ∧
    (getDashboardStats (envInMemory (atDay 19884 10)) patientUser (World.start dbJune)).1 =
      .stats (.patient 3 1 0 0) ∧
    (getDashboardStats (envCounting (atDay 19884 10)) patientUser (World.start dbJune)).1 =
      .stats (.patient 3 0 0 0) := by
  decide

/-- C6 (code evaluated at the failing input): at 15:00 on 2024-06-10, with one confirmed
appointment at 09:00 that day, the patient's stats differ between the two kinds of store:
`upcomingAppointments` is 1 on the enumeration path and 0 on the counting path. -/
theorem dual_path_differs_for_patient :
    (getDashboardStats (envInMemory (atDay 19884 15)) patientUser (World.start dbMorning)).1 =
      .stats (.patient 1 1 0 0) ∧
    (getDashboardStats (envCounting (atDay 19884 15)) patientUser (World.start dbMorning)).1 =
      .stats (.patient 1 0 0 0) ∧
    (getDashboardStats (envInMemory (atDay 19884 15)) patientUser (World.start dbMorning)).1 ≠
      (getDashboardStats (envCounting (atDay 19884 15)) patientUser
        (World.start dbMorning)).1 := by
  decide

/-- C7: for a doctor the dashboard's `totalPatients` is the number of distinct patient
identifiers among the appointments whose doctor is the caller, not the number of
appointments, whether each patient reference is a plain identifier or a populated record
carrying `_id`, on the enumeration path and on the counting path. -/
theorem getDashboardStats_doctor_totalPatients (env : Env) (user : Identity) (w : World)
    (hrole : user.role = "doctor") (hnf : env.noFault) (hcap : env.doctorCapable) :
    ∃ s, (getDashboardStats env user w).1 = .stats s ∧
      s.totalPatients? = some (distinctPatientCount w.db user.id) :=
  ⟨_, getDashboardStats_doctor_run env user w hrole hnf hcap, rfl⟩

/-- An instance of the deduplication: doctor D has three appointments, two of them with
patient P1, and both kinds of store report `totalPatients = 2`. -/
theorem getDashboardStats_doctor_totalPatients_witness :
    distinctPatientCount dbDoctor idD = 2 ∧
    (∃ s, (getDashboardStats (envInMemory 0) doctorUser (World.start dbDoctor)).1 = .stats s ∧
      s.totalPatients? = some 2) ∧
    (∃ s, (getDashboardStats (envCounting 0) doctorUser (World.start dbDoctor)).1 = .stats s ∧
      s.totalPatients? = some 2) :=
  ⟨by decide,
    getDashboardStats_doctor_totalPatients (envInMemory 0) doctorUser (World.start dbDoctor)
      rfl (fun _ _ => rfl) (fun h => by cases h),
    getDashboardStats_doctor_totalPatients (envCounting 0) doctorUser (World.start dbDoctor)
      rfl (fun _ _ => rfl) (fun _ => ⟨rfl, rfl⟩)⟩

/-! ## Theorems: health trends -/

/-- C8 (code evaluated at the failing input): doctor D made all three stored analyses (the
doctor's own dashboard counts `myAnalyses = 3`), yet `getHealthTrends` for D returns no
trend point, because it filters on `patient: userId` for every non-admin caller. -/
theorem getHealthTrends_doctor_scoping :
    (dbTrends.analyses.filter fun a => decide (a.doctor.id = doctorUser.id)).length = 3 ∧
    (getDashboardStats (envInMemory 0) doctorUser (World.start dbTrends)).1 =
      .stats (.doctor 0 0 0 3 0) ∧
    (getHealthTrends (envInMemory 0) doctorUser (World.start dbTrends)).1 = .trends [] := by
  decide

/-- The `accuracy` of a trend point: the analysis's accuracy, except that `0` becomes
`null`. -/
theorem trendPoint_accuracy (a : AIAnalysis) :
    (trendPoint a).accuracy = if a.accuracy = some 0 then none else a.accuracy := by
  cases h : a.accuracy with
  | none => simp [trendPoint, orNull, h]
  | some v => by_cases hv : v = 0 <;> simp [trendPoint, orNull, h, hv]

/-- C9 (code evaluated at the failing input): an analysis whose accuracy is the number `0`
gets a trend point whose accuracy is `null`; its other fields are as claimed. -/
theorem trendPoint_zero_accuracy :
    trendPoint ⟨.plain idD, .plain idP1, 30, some ⟨some "high", some 90, some ["flu"]⟩, some 0⟩ =
      { date := 30, severity := "high", confidence := 90, accuracy := none,
        diagnosisCount := 1 } := by
  decide

/-- C10: for every caller, when the store answers, `getHealthTrends` returns trend points
whose dates are in non-decreasing order (oldest first) and which are a permutation of the
trend points of the analyses the store returned: one per analysis. -/
theorem getHealthTrends_sorted_perm (env : Env) (user : Identity) (w : World)
    (hnf : env.noFault) :
    ∃ ts, (getHealthTrends env user w).1 = .trends ts ∧
      (ts.map fun t => t.date).Sorted (· ≤ ·) ∧
      ts.Perm ((analysesFound user w.db).map trendPoint) :=
  ⟨_, getHealthTrends_run env user w hnf, sortByCreatedAt_trends _⟩

/-- An instance of the ordering: three analyses stored newest first come back oldest
first. -/
theorem getHealthTrends_sorted_perm_witness :
    (getHealthTrends (envInMemory 0) patientUser (World.start dbTrends)).1 =
      .trends [⟨10, "low", 0, none, 0⟩, ⟨20, "low", 0, none, 0⟩, ⟨30, "high", 90, some 80, 2⟩] ∧
    ∃ ts, (getHealthTrends (envInMemory 0) patientUser (World.start dbTrends)).1 = .trends ts ∧
      (ts.map fun t => t.date).Sorted (· ≤ ·) ∧
      ts.Perm ((analysesFound patientUser (World.start dbTrends).db).map trendPoint) :=
  ⟨by decide, getHealthTrends_sorted_perm (envInMemory 0) patientUser (World.start dbTrends)
    (fun _ _ => rfl)⟩

/-! ## Theorems: call plans and the cache invariant -/

theorem cacheFresh_cleared (w : World) (now : Int) :
    cacheFresh (clearStatsCache w).cache now = false := by
  simp [cacheFresh, clearStatsCache]

theorem Eff.reads_readCache : readCache.Reads := fun w => ⟨[], by simp [readCache]⟩

theorem doctorStats_reads (env : Env) (userId : Id) : (doctorStats env userId).Reads := by
  unfold doctorStats
  refine Eff.reads_ite ?_ ?_
  · refine Eff.reads_bind (reads_Appointment_find _ _) fun _ => ?_
    refine Eff.reads_bind (reads_AIAnalysis_find _ _) fun _ => ?_
    exact Eff.reads_pure _
  · refine Eff.reads_bind (reads_Appointment_countDocuments _ _) fun _ => ?_
    refine Eff.reads_bind (reads_Appointment_countDocuments _ _) fun _ => ?_
    refine Eff.reads_bind (reads_Appointment_countDocuments _ _) fun _ => ?_
    refine Eff.reads_bind (reads_AIAnalysis_countDocuments _ _) fun _ => ?_
    refine Eff.reads_bind (reads_Appointment_distinctPatient _ _) fun _ => ?_
    exact Eff.reads_pure _

theorem patientStats_reads (env : Env) (userId : Id) : (patientStats env userId).Reads := by
  unfold patientStats
  refine Eff.reads_ite ?_ ?_
  · refine Eff.reads_bind (reads_Appointment_find _ _) fun _ => ?_
    refine Eff.reads_bind (Eff.reads_dateNow _) fun _ => ?_
    refine Eff.reads_bind (reads_Report_find _ _) fun _ => ?_
    refine Eff.reads_bind (reads_AIAnalysis_find _ _) fun _ => ?_
    exact Eff.reads_pure _
  · refine Eff.reads_bind (reads_Appointment_countDocuments _ _) fun _ => ?_
    refine Eff.reads_bind (Eff.reads_dateNow _) fun _ => ?_
    refine Eff.reads_bind (reads_Appointment_countDocuments _ _) fun _ => ?_
    refine Eff.reads_bind (reads_Report_countDocuments _ _) fun _ => ?_
    refine Eff.reads_bind (reads_AIAnalysis_countDocuments _ _) fun _ => ?_
    exact Eff.reads_pure _

theorem getHealthTrendsTry_reads (env : Env) (user : Identity) :
    (getHealthTrendsTry env user).Reads := by
  unfold getHealthTrendsTry
  refine Eff.reads_bind (Eff.reads_ite (reads_AIAnalysis_find _ _) (reads_AIAnalysis_find _ _))
    fun _ => ?_
  exact Eff.reads_pure _

theorem deleteUserTry_reads (env : Env) (paramsId : Id) (user : Identity) :
    (deleteUserTry env paramsId user).Reads := by
  unfold deleteUserTry
  refine Eff.reads_ite (Eff.reads_pure _) ?_
  refine Eff.reads_bind (Eff.reads_issue _ _ _) fun found => ?_
  cases found
  · exact Eff.reads_pure _
  · exact Eff.reads_pure _

theorem handle_world (body : Eff Response) (w : World) : (handle body w).2 = (body w).2 := by
  unfold handle
  rcases body w with ⟨r, w'⟩
  cases r <;> rfl

theorem Eff.Reads.cache_eq {α : Type} {m : Eff α} (h : m.Reads) (w : World) :
    (m w).2.cache = w.cache := by
  obtain ⟨_, _, h2, _⟩ := h w
  exact h2

/-- What `getDashboardStats` can do to the cache: nothing, or set `data` and `timestamp`
together. -/
theorem getDashboardStats_cache (env : Env) (user : Identity) (w : World) :
    (getDashboardStats env user w).2.cache = w.cache ∨
      ∃ s t, (getDashboardStats env user w).2.cache =
        { w.cache with data := some s, timestamp := some t } := by
  by_cases hrole : user.role = "admin"
  · cases hfresh : cacheFresh w.cache (env.clock w.reads)
    · rw [getDashboardStats_admin_miss_run env user w hrole hfresh]
      have hc := (adminCounts_reads env).cache_eq { w with reads := w.reads + 1 }
      rcases hrun : adminCounts env { w with reads := w.reads + 1 } with ⟨r, w'⟩
      rw [hrun] at hc
      cases r with
      | error e => exact Or.inl hc
      | ok s =>
        refine Or.inr ⟨s, env.clock w'.reads, ?_⟩
        simp only at hc ⊢
        rw [hc]
    · left
      cases hd : w.cache.data with
      | none => simp [cacheFresh, hd] at hfresh
      | some d =>
        simp [getDashboardStats, handle, getDashboardStatsTry, hrole, dateNow, readCache,
          hfresh, hd]
  · left
    rw [getDashboardStats, handle_world]
    have hreads : (getDashboardStatsTry env user).Reads := by
      unfold getDashboardStatsTry
      simp only [hrole, if_false]
      refine Eff.reads_bind (Eff.reads_pure _) fun cached => ?_
      cases cached with
      | some d => exact Eff.reads_pure _
      | none =>
        refine Eff.reads_bind ?_ fun _ => Eff.reads_pure _
        exact Eff.reads_ite (doctorStats_reads _ _)
          (Eff.reads_ite (patientStats_reads _ _) (Eff.reads_pure _))
    exact hreads.cache_eq w

theorem Eff.follows_pure {α : Type} (a : α) : (Pure.pure a : Eff α).Follows [] := fun w =>
  ⟨[], by simp⟩

theorem Eff.follows_dateNow (env : Env) : (dateNow env).Follows [] := fun w =>
  ⟨[], by simp [dateNow]⟩

theorem Eff.follows_readCache : readCache.Follows [] := fun w => ⟨[], by simp [readCache]⟩

theorem Eff.follows_writeCache (d : Option Stats) (t : Option Int) :
    (writeCache d t).Follows [] := fun w => ⟨[], by simp [writeCache]⟩

theorem Eff.follows_issue {α : Type} (env : Env) (c : Call) (answer : DB → α × DB) :
    (issue env c answer).Follows [c] := fun w => by
  by_cases hflt : env.fault w.calls c = true
  · exact ⟨[⟨c, true⟩], by simp [issue, hflt]⟩
  · exact ⟨[⟨c, false⟩], by simp [issue, hflt]⟩

theorem Eff.follows_bind {α β : Type} {m : Eff α} {f : α → Eff β} {p q : List Call}
    (hm : m.Follows p) (hf : ∀ a, (f a).Follows q) : (m >>= f).Follows (p ++ q) := fun w => by
  obtain ⟨es, h1, h2⟩ := hm w
  rw [Eff.run_bind]
  rcases hmw : m w with ⟨r, w'⟩
  rw [hmw] at h1
  cases r with
  | error e => exact ⟨es, h1, h2.trans (List.sublist_append_left p q)⟩
  | ok a =>
    obtain ⟨es', g1, g2⟩ := hf a w'
    refine ⟨es ++ es', ?_, ?_⟩
    · simp only at h1 ⊢; rw [g1, h1, List.append_assoc]
    · rw [List.map_append]; exact h2.append g2

theorem Eff.Follows.mono {α : Type} {m : Eff α} {p q : List Call} (hm : m.Follows p)
    (hpq : p.Sublist q) : m.Follows q := fun w =>
  let ⟨es, h1, h2⟩ := hm w
  ⟨es, h1, h2.trans hpq⟩

theorem adminStats_follows (env : Env) (hmem : ∀ c, env.hasCount c = false) :
    (adminStats env).Follows
      [⟨.users, .find, {}⟩, ⟨.appointments, .find, {}⟩, ⟨.analyses, .find, {}⟩] := by
  unfold adminStats
  refine Eff.follows_bind (p := [_, _, _]) (q := []) ?_ fun _ => ?_
  · unfold adminCounts
    simp only [hmem, Bool.not_false, if_true]
    exact Eff.follows_bind (p := [_]) (Eff.follows_issue _ _ _) fun _ =>
      Eff.follows_bind (p := [_]) (Eff.follows_issue _ _ _) fun _ =>
        Eff.follows_bind (p := [_]) (Eff.follows_issue _ _ _) fun _ => Eff.follows_pure _
  · exact Eff.follows_bind (p := []) (Eff.follows_dateNow env) fun _ =>
      Eff.follows_bind (p := []) (Eff.follows_writeCache _ _) fun _ => Eff.follows_pure _

theorem doctorStats_follows (env : Env) (userId : Id) (hmem : ∀ c, env.hasCount c = false) :
    (doctorStats env userId).Follows
      [⟨.appointments, .find, { doctor := some userId }⟩,
       ⟨.analyses, .find, { doctor := some userId }⟩] := by
  unfold doctorStats
  simp only [hmem, Bool.not_false, if_true]
  exact Eff.follows_bind (p := [_]) (Eff.follows_issue _ _ _) fun _ =>
    Eff.follows_bind (p := [_]) (Eff.follows_issue _ _ _) fun _ => Eff.follows_pure _

theorem patientStats_follows (env : Env) (userId : Id) (hmem : ∀ c, env.hasCount c = false) :
    (patientStats env userId).Follows
      [⟨.appointments, .find, { patient := some userId }⟩,
       ⟨.reports, .find, { patient := some userId }⟩,
       ⟨.analyses, .find, { patient := some userId }⟩] := by
  unfold patientStats
  simp only [hmem, Bool.not_false, if_true]
  exact Eff.follows_bind (p := [_]) (Eff.follows_issue _ _ _) fun _ =>
    Eff.follows_bind (p := []) (Eff.follows_dateNow env) fun _ =>
      Eff.follows_bind (p := [_]) (Eff.follows_issue _ _ _) fun _ =>
        Eff.follows_bind (p := [_]) (Eff.follows_issue _ _ _) fun _ => Eff.follows_pure _

theorem getDashboardStatsTry_follows (env : Env) (user : Identity)
    (hmem : ∀ c, env.hasCount c = false) :
    (getDashboardStatsTry env user).Follows (findPlan user) := by
  unfold getDashboardStatsTry findPlan
  by_cases hadmin : user.role = "admin"
  · simp only [hadmin, if_true]
    refine Eff.follows_bind (p := []) (q := [_, _, _]) ?_ fun cached => ?_
    · exact Eff.follows_bind (p := []) (Eff.follows_dateNow env) fun _ =>
        Eff.follows_bind (p := []) Eff.follows_readCache fun _ => Eff.follows_pure _
    · cases cached with
      | some d => exact (Eff.follows_pure _).mono (List.nil_sublist _)
      | none =>
        exact Eff.follows_bind (p := [_, _, _]) (q := []) (adminStats_follows env hmem)
          fun _ => Eff.follows_pure _
  · by_cases hdoctor : user.role = "doctor"
    · simp only [hadmin, hdoctor, if_true, if_false]
      refine Eff.follows_bind (p := []) (q := [_, _]) (Eff.follows_pure _) fun cached => ?_
      cases cached with
      | some d => exact (Eff.follows_pure _).mono (List.nil_sublist _)
      | none =>
        exact Eff.follows_bind (p := [_, _]) (q := []) (doctorStats_follows env _ hmem)
          fun _ => Eff.follows_pure _
    · by_cases hpatient : user.role = "patient"
      · simp only [hadmin, hdoctor, hpatient, if_true, if_false]
        refine Eff.follows_bind (p := []) (q := [_, _, _]) (Eff.follows_pure _) fun cached => ?_
        cases cached with
        | some d => exact (Eff.follows_pure _).mono (List.nil_sublist _)
        | none =>
          exact Eff.follows_bind (p := [_, _, _]) (q := []) (patientStats_follows env _ hmem)
            fun _ => Eff.follows_pure _
      · simp only [hadmin, hdoctor, hpatient, if_false]
        refine Eff.follows_bind (p := []) (q := []) (Eff.follows_pure _) fun cached => ?_
        cases cached with
        | some d => exact Eff.follows_pure _
        | none =>
          exact Eff.follows_bind (p := []) (q := []) (Eff.follows_pure _)
            fun _ => Eff.follows_pure _

theorem findPlan_once (user : Identity) (coll : Coll) :
    (findPlan user).countP (fun c => decide (c.coll = coll)) ≤ 1 := by
  unfold findPlan
  split_ifs <;> cases coll <;> simp [List.countP_cons]

theorem findPlan_find (user : Identity) : ∀ c ∈ findPlan user, c.op = .find := by
  unfold findPlan
  split_ifs <;> simp

/-- C11: on a store without `countDocuments`, one `getDashboardStats` call, for any caller
and whether or not calls fail, issues only `find` calls and at most one call on each
collection. -/
theorem getDashboardStats_enumerates_once (env : Env) (user : Identity) (w : World)
    (hmem : ∀ c, env.hasCount c = false) (coll : Coll) :
    (∀ e ∈ (getDashboardStats env user w).2.calls.drop w.calls.length, e.call.op = .find) ∧
    ((getDashboardStats env user w).2.calls.drop w.calls.length).countP
      (fun e => decide (e.call.coll = coll)) ≤ 1 := by
  obtain ⟨es, h1, h2⟩ := getDashboardStatsTry_follows env user hmem w
  rw [getDashboardStats, handle_world, h1, List.drop_left]
  constructor
  · intro e he
    exact findPlan_find user e.call (h2.subset (List.mem_map_of_mem Entry.call he))
  · have hmap : es.countP (fun e => decide (e.call.coll = coll)) =
        (es.map Entry.call).countP (fun c => decide (c.coll = coll)) := by
      rw [List.countP_map]; rfl
    rw [hmap]
    exact (h2.countP_le _).trans (findPlan_once user coll)

/-- An instance of single enumeration: the admin call on the enumeration-only store reads
the user collection once. -/
theorem getDashboardStats_enumerates_once_witness :
    (∀ e ∈ (getDashboardStats (envInMemory 0) adminUser (World.start dbTwoUsers)).2.calls.drop
        (World.start dbTwoUsers).calls.length, e.call.op = .find) ∧
    ((getDashboardStats (envInMemory 0) adminUser (World.start dbTwoUsers)).2.calls.drop
        (World.start dbTwoUsers).calls.length).countP
      (fun e => decide (e.call.coll = .users)) ≤ 1 :=
  getDashboardStats_enumerates_once (envInMemory 0) adminUser (World.start dbTwoUsers)
    (fun _ => rfl) .users


/-- C12: whatever the cache holds and whatever the clock reads, `clearStatsCache` leaves
`data` and `timestamp` null and `ttl` as it was, and the next admin call does not hit the
cache: it issues at least one data-store call and, when no call fails on a uniform store,
answers with the counts of the current contents and stores them. -/
theorem clearStatsCache_forces_recompute (env : Env) (user : Identity) (w : World)
    (hrole : user.role = "admin") :
    (clearStatsCache w).cache = { data := none, timestamp := none, ttl := w.cache.ttl } ∧
    (∃ e es, (getDashboardStats env user (clearStatsCache w)).2.calls = w.calls ++ e :: es) ∧
    (env.noFault → env.adminCapable →
      (getDashboardStats env user (clearStatsCache w)).1 = .stats (adminTotals w.db) ∧
      (getDashboardStats env user (clearStatsCache w)).2.cache =
        { data := some (adminTotals w.db), timestamp := some (env.clock (w.reads + 1)),
          ttl := w.cache.ttl }) := by
  have hmiss := cacheFresh_cleared w (env.clock (clearStatsCache w).reads)
  rw [getDashboardStats_admin_miss_run env user _ hrole hmiss]
  refine ⟨rfl, ?_, ?_⟩
  · obtain ⟨e, es, h⟩ :=
      adminCounts_calls env { clearStatsCache w with reads := (clearStatsCache w).reads + 1 }
    rcases hrun : adminCounts env
      { clearStatsCache w with reads := (clearStatsCache w).reads + 1 } with ⟨r, w'⟩
    rw [hrun] at h
    cases r <;> exact ⟨e, es, h⟩
  · intro hnf hcap
    obtain ⟨es, h⟩ := adminCounts_noFault env
      { clearStatsCache w with reads := (clearStatsCache w).reads + 1 } hnf hcap
    rw [h]
    exact ⟨rfl, rfl⟩

/-- An instance of invalidation: a snapshot taken 1 ms ago would be served, but after
`clearStatsCache` the admin call recomputes. -/
theorem clearStatsCache_forces_recompute_witness :
    (getDashboardStats (envInMemory 1001) adminUser
        (clearStatsCache (World.cachedAt dbTwoUsers (.admin 7 7 7 7 7 7) 1000))).1 =
      .stats (.admin 2 1 0 0 0 0) ∧
    (getDashboardStats (envInMemory 1001) adminUser
        (clearStatsCache (World.cachedAt dbTwoUsers (.admin 7 7 7 7 7 7) 1000))).2.cache =
      { data := some (.admin 2 1 0 0 0 0), timestamp := some 1001, ttl := 300000 } :=
  (clearStatsCache_forces_recompute (envInMemory 1001) adminUser
    (World.cachedAt dbTwoUsers (.admin 7 7 7 7 7 7) 1000) rfl).2.2
    (fun _ _ => rfl) (fun h => by cases h)

/-- C13: a caller whose role is none of admin, doctor and patient gets the empty stats
object as a successful response; the world is left exactly as it was: no data-store call, no
clock read, the cache untouched, whatever the cache and the store hold and whether or not
the store is failing. -/
theorem getDashboardStats_unknown_role (env : Env) (user : Identity) (w : World)
    (hadmin : user.role ≠ "admin") (hdoctor : user.role ≠ "doctor")
    (hpatient : user.role ≠ "patient") :
    getDashboardStats env user w = (.stats .empty, w) := by
  simp [getDashboardStats, handle, getDashboardStatsTry, hadmin, hdoctor, hpatient]

/-- An instance of the unknown role: `guest` gets `{}` from a failing store with a populated
cache. -/
theorem getDashboardStats_unknown_role_witness :
    getDashboardStats (envAnalysesDown 5) guestUser
        (World.cachedAt dbTwoUsers (.admin 7 7 7 7 7 7) 1) =
      (.stats .empty, World.cachedAt dbTwoUsers (.admin 7 7 7 7 7 7) 1) :=
  getDashboardStats_unknown_role (envAnalysesDown 5) guestUser
    (World.cachedAt dbTwoUsers (.admin 7 7 7 7 7 7) 1) (by decide) (by decide) (by decide)

/-- C14: in every state reached from the empty cache by requests and `clearStatsCache`
calls in any order, with any callers and any (failing or healthy) store, `data` and
`timestamp` are both null or both set, and `ttl` is 300000 ms. -/
theorem statsCache_invariant (w : World) (h : Reachable w) : w.cache.Consistent := by
  induction h with
  | start db => exact ⟨Or.inl ⟨rfl, rfl⟩, rfl⟩
  | stats env user _ ih =>
    rcases getDashboardStats_cache env user _ with hc | ⟨s, t, hc⟩
    · rw [hc]; exact ih
    · rw [hc]; exact ⟨Or.inr ⟨s, t, rfl, rfl⟩, ih.2⟩
  | clear _ ih => exact ⟨Or.inl ⟨rfl, rfl⟩, ih.2⟩
  | trends env user _ ih =>
    rw [getHealthTrends, handle_world, (getHealthTrendsTry_reads env user).cache_eq]
    exact ih
  | delete env paramsId user _ ih =>
    rw [deleteUser, handle_world, (deleteUserTry_reads env paramsId user).cache_eq]
    exact ih

/-- An instance of the invariant: after an admin call, an invalidation and a failing admin
call. -/
theorem statsCache_invariant_witness :
    (getDashboardStats (envAnalysesDown 9) adminUser
      (clearStatsCache worldStampedZero)).2.cache.Consistent :=
  statsCache_invariant _ (.stats _ _ (.clear (.stats _ _ (.start dbTwoUsers))))

end UserController

namespace Logger

/-! ## Theorems: the sensitivity test -/

theorem beginsWith_iff : ∀ s sub : List Char,
    beginsWith s sub = true ↔ ∃ after, sub ++ after = s
  | s, [] => by simp [beginsWith]
  | [], d :: ds => by simp [beginsWith]
  | c :: cs, d :: ds => by
    simp only [beginsWith, Bool.and_eq_true, beq_iff_eq, beginsWith_iff cs ds,
      List.cons_append, List.cons.injEq]
    constructor
    · rintro ⟨hcd, after, h⟩
      exact ⟨after, hcd.symm, h⟩
    · rintro ⟨after, hcd, h⟩
      exact ⟨hcd.symm, after, h⟩

theorem includes_iff : ∀ s sub : List Char,
    includes s sub = true ↔ ∃ before after, before ++ sub ++ after = s
  | [], sub => by
    cases sub with
    | nil => simp [includes]
    | cons d ds => simp [includes]
  | c :: cs, sub => by
    simp only [includes, Bool.or_eq_true, beginsWith_iff, includes_iff cs sub]
    constructor
    · rintro (⟨after, h⟩ | ⟨before, after, h⟩)
      · exact ⟨[], after, by simpa using h⟩
      · exact ⟨c :: before, after, by simp [← h]⟩
    · rintro ⟨before, after, h⟩
      cases before with
      | nil => exact Or.inl ⟨after, by simpa using h⟩
      | cons b bs =>
        simp only [List.cons_append, List.cons.injEq] at h
        exact Or.inr ⟨bs, after, h.2⟩

/-- The test of the code picks exactly the keys the claim describes. -/
theorem isSensitive_iff (lc : String → String) (key : String) :
    isSensitive lc key = true ↔ SensitiveName lc key := by
  simp only [isSensitive, sensitiveFields, List.any_eq_true, includes_iff, SensitiveName]

theorem isSensitive_false_iff (lc : String → String) (key : String) :
    isSensitive lc key = false ↔ ¬ SensitiveName lc key := by
  rw [← isSensitive_iff, Bool.not_eq_true]

theorem sanitizeProps_cons_sensitive (lc : String → String) (key : String) (value : JsVal)
    (rest : Props) (h : isSensitive lc key = true) :
    sanitizeProps lc (.cons key value rest) = .cons key redacted (sanitizeProps lc rest) := by
  cases value <;> simp [sanitizeProps, h]

theorem sanitizeProps_cons_plain (lc : String → String) (key : String) (value : JsVal)
    (rest : Props) (h : isSensitive lc key = false) :
    sanitizeProps lc (.cons key value rest) =
      .cons key (sanitizeData lc value) (sanitizeProps lc rest) := by
  cases value <;> simp [sanitizeProps, h, sanitizeData]

theorem get?_sanitizeProps_plain (lc : String → String) (key : String)
    (h : isSensitive lc key = false) :
    ∀ ps : Props, (sanitizeProps lc ps).get? key = (ps.get? key).map (sanitizeData lc)
  | .nil => by simp [sanitizeProps, Props.get?]
  | .cons k v rest => by
    by_cases hk : k = key
    · subst hk
      rw [sanitizeProps_cons_plain lc _ _ _ h]
      simp [Props.get?]
    · by_cases hs : isSensitive lc k = true
      · rw [sanitizeProps_cons_sensitive lc _ _ _ hs]
        simp [Props.get?, hk, get?_sanitizeProps_plain lc key h rest]
      · rw [sanitizeProps_cons_plain lc _ _ _ (by simpa using hs)]
        simp [Props.get?, hk, get?_sanitizeProps_plain lc key h rest]

theorem get?_sanitizeProps_sensitive (lc : String → String) (key : String)
    (h : isSensitive lc key = true) :
    ∀ (ps : Props) (x : JsVal), (sanitizeProps lc ps).get? key = some x → x = redacted
  | .nil, x => by simp [sanitizeProps, Props.get?]
  | .cons k v rest, x => by
    by_cases hk : k = key
    · subst hk
      rw [sanitizeProps_cons_sensitive lc _ _ _ h]
      simp only [Props.get?, if_true, Option.some.injEq]
      intro hx; exact hx.symm
    · by_cases hs : isSensitive lc k = true
      · rw [sanitizeProps_cons_sensitive lc _ _ _ hs]
        simp only [Props.get?, hk, if_false]
        exact get?_sanitizeProps_sensitive lc key h rest x
      · rw [sanitizeProps_cons_plain lc _ _ _ (by simpa using hs)]
        simp only [Props.get?, hk, if_false]
        exact get?_sanitizeProps_sensitive lc key h rest x

/-! ## Theorems: `sanitizeData` on trees -/

theorem at?_redacted (path : List String) (x : JsVal) (h : redacted.at? path = some x) :
    x = redacted := by
  cases path with
  | nil => simpa [JsVal.at?] using h.symm
  | cons k ks => simp [redacted, JsVal.at?] at h

/-- In the result, whatever is stored under a sensitive key, at any depth, is the
replacement value. -/
theorem sanitizeData_redacts (lc : String → String) (key : String)
    (hkey : isSensitive lc key = true) :
    ∀ (path : List String) (v x : JsVal),
      (sanitizeData lc v).at? (path ++ [key]) = some x → x = redacted
  | [], .prim p, x => by simp [sanitizeData, JsVal.at?]
  | [], .object a ps, x => by
    simp only [sanitizeData, List.nil_append, JsVal.at?]
    cases hget : (sanitizeProps lc ps).get? key with
    | none => simp
    | some y =>
      simp only [Option.some.injEq]
      intro hx
      subst hx
      exact get?_sanitizeProps_sensitive lc key hkey ps y hget
  | k :: ks, .prim p, x => by simp [sanitizeData, JsVal.at?]
  | k :: ks, .object a ps, x => by
    simp only [sanitizeData, List.cons_append, JsVal.at?]
    by_cases hk : isSensitive lc k = true
    · cases hget : (sanitizeProps lc ps).get? k with
      | none => simp
      | some y =>
        have hy := get?_sanitizeProps_sensitive lc k hk ps y hget
        subst hy
        intro h
        exact at?_redacted _ x h
    · rw [get?_sanitizeProps_plain lc k (by simpa using hk) ps]
      cases hget : ps.get? k with
      | none => simp
      | some y =>
        simp only [Option.map_some']
        exact sanitizeData_redacts lc key hkey ks y x

/-- A non-object value reached through keys none of which is sensitive is the same in the
input and in the result. -/
theorem sanitizeData_keeps (lc : String → String) :
    ∀ (path : List String) (v : JsVal) (p : Prim), (∀ k ∈ path, isSensitive lc k = false) →
      ((sanitizeData lc v).at? path = some (.prim p) ↔ v.at? path = some (.prim p))
  | [], .prim q, p, _ => by simp [sanitizeData, JsVal.at?]
  | [], .object a ps, p, _ => by simp [sanitizeData, JsVal.at?]
  | k :: ks, .prim q, p, _ => by simp [sanitizeData, JsVal.at?]
  | k :: ks, .object a ps, p, h => by
    have hk : isSensitive lc k = false := h k (List.mem_cons_self _ _)
    have hks : ∀ k' ∈ ks, isSensitive lc k' = false := fun k' hk' =>
      h k' (List.mem_cons_of_mem _ hk')
    simp only [sanitizeData, JsVal.at?]
    rw [get?_sanitizeProps_plain lc k hk ps]
    cases hget : ps.get? k with
    | none => simp
    | some y =>
      simp only [Option.map_some']
      exact sanitizeData_keeps lc ks y p hks

mutual
theorem sanitizeData_agree (lc : String → String) :
    ∀ v w : JsVal, AgreeOutside lc v w → sanitizeData lc v = sanitizeData lc w
  | .prim p, .prim q, h => by
    simp only [AgreeOutside] at h
    rw [h]
  | .prim p, .object b qs, h => by simp [AgreeOutside] at h
  | .object a ps, .prim q, h => by simp [AgreeOutside] at h
  | .object a ps, .object b qs, h => by
    simp only [AgreeOutside] at h
    simp only [sanitizeData, sanitizeProps_agree lc ps qs h.2]
theorem sanitizeProps_agree (lc : String → String) :
    ∀ ps qs : Props, AgreeOutsideProps lc ps qs → sanitizeProps lc ps = sanitizeProps lc qs
  | .nil, .nil, _ => rfl
  | .nil, .cons k v r, h => by simp [AgreeOutsideProps] at h
  | .cons k v r, .nil, h => by simp [AgreeOutsideProps] at h
  | .cons k v r, .cons k' v' r', h => by
    simp only [AgreeOutsideProps] at h
    obtain ⟨hk, hv, hr⟩ := h
    subst hk
    by_cases hs : isSensitive lc k = true
    · rw [sanitizeProps_cons_sensitive lc _ _ _ hs, sanitizeProps_cons_sensitive lc _ _ _ hs,
        sanitizeProps_agree lc r r' hr]
    · have hs' : isSensitive lc k = false := by simpa using hs
      have hv' : AgreeOutside lc v v' :=
        hv.resolve_left (fun hn => hs ((isSensitive_iff lc k).2 hn))
      rw [sanitizeProps_cons_plain lc _ _ _ hs', sanitizeProps_cons_plain lc _ _ _ hs',
        sanitizeProps_agree lc r r' hr, sanitizeData_agree lc v v' hv']
end

/-- On trees: in the result of `sanitizeData`, whatever is stored under a key with a
sensitive name is the replacement value, at every depth; a non-object value reached through
other keys is the same in the input and in the result; and two inputs that differ only in
what is stored under keys with a sensitive name have the same result. -/
theorem sanitizeData_hides_sensitive (lc : String → String) (v : JsVal) :
    (∀ (path : List String) (key : String) (x : JsVal), SensitiveName lc key →
      (sanitizeData lc v).at? (path ++ [key]) = some x → x = .prim (.str "[REDACTED]")) ∧
    (∀ (path : List String) (p : Prim), (∀ k ∈ path, ¬ SensitiveName lc k) →
      ((sanitizeData lc v).at? path = some (.prim p) ↔ v.at? path = some (.prim p))) ∧
    (∀ w : JsVal, AgreeOutside lc v w → sanitizeData lc v = sanitizeData lc w) :=
  ⟨fun path key x hkey => sanitizeData_redacts lc key ((isSensitive_iff lc key).2 hkey) path v x,
    fun path p hpath => sanitizeData_keeps lc path v p
      (fun k hk => (isSensitive_false_iff lc k).2 (hpath k hk)),
    fun w => sanitizeData_agree lc v w⟩

/-! ## Theorems: memory -/

theorem getElem?_append_cons_self {α : Type} (pre : List α) (x : α) (tail : List α) :
    (pre ++ x :: tail)[pre.length]? = some x := by
  induction pre with
  | nil => simp
  | cons y ys ih => simpa using ih

theorem set_append_cons_self {α : Type} (pre : List α) (x y : α) (tail : List α) :
    (pre ++ x :: tail).set pre.length y = pre ++ y :: tail := by
  induction pre with
  | nil => rfl
  | cons z zs ih => simp [ih]

theorem getElem?_append_of_some {α : Type} (pre ext : List α) (a : Nat) (o : α)
    (h : pre[a]? = some o) : (pre ++ ext)[a]? = some o := by
  induction pre generalizing a with
  | nil => simp at h
  | cons y ys ih =>
    cases a with
    | zero => simpa using h
    | succ n => simpa using ih n (by simpa using h)

theorem getElem?_after {α : Type} (pre : List α) (x y : α) (tail ext : List α) (a : Nat) (o : α)
    (ha : pre.length + 1 ≤ a) (h : (pre ++ x :: tail)[a]? = some o) :
    (pre ++ y :: (tail ++ ext))[a]? = some o := by
  induction pre generalizing a with
  | nil =>
    cases a with
    | zero => simp at ha
    | succ n =>
      simp only [List.nil_append, List.getElem?_cons_succ] at h ⊢
      exact getElem?_append_of_some tail ext n o h
  | cons z zs ih =>
    cases a with
    | zero => simp at ha
    | succ n =>
      simp only [List.cons_append, List.getElem?_cons_succ] at h ⊢
      exact ih n (by simpa using ha) h

theorem readProp_append_cons (done : List (String × HVal)) (k : String) (v : HVal)
    (rest : List (String × HVal)) (hk : k ∉ done.map Prod.fst) :
    readProp (done ++ (k, v) :: rest) k = some v := by
  induction done with
  | nil => simp [readProp]
  | cons d ds ih =>
    obtain ⟨dk, dv⟩ := d
    simp only [List.map_cons, List.mem_cons, not_or] at hk
    simp only [List.cons_append, readProp]
    rw [if_neg (fun e => hk.1 e.symm)]
    exact ih hk.2

theorem writeProp_append_cons (done : List (String × HVal)) (k : String) (v v' : HVal)
    (rest : List (String × HVal)) (hk : k ∉ done.map Prod.fst) :
    writeProp (done ++ (k, v) :: rest) k v' = done ++ (k, v') :: rest := by
  induction done with
  | nil => simp [writeProp]
  | cons d ds ih =>
    obtain ⟨dk, dv⟩ := d
    simp only [List.map_cons, List.mem_cons, not_or] at hk
    have ih' := ih hk.2
    simp only [List.cons_append, writeProp]
    rw [if_neg (fun e => hk.1 e.symm)]
    exact congrArg _ ih'

theorem read_copy (pre : Heap) (b : Bool) (done : List (String × HVal)) (k : String) (v : HVal)
    (rest : List (String × HVal)) (mid : Heap) (hk : k ∉ done.map Prod.fst) :
    Heap.read (pre ++ ⟨b, done ++ (k, v) :: rest⟩ :: mid) pre.length k = some v := by
  simp only [Heap.read, getElem?_append_cons_self]
  exact readProp_append_cons done k v rest hk

theorem write_copy (pre : Heap) (b : Bool) (done : List (String × HVal)) (k : String)
    (v v' : HVal) (rest : List (String × HVal)) (mid : Heap) (hk : k ∉ done.map Prod.fst) :
    Heap.write (pre ++ ⟨b, done ++ (k, v) :: rest⟩ :: mid) pre.length k v' =
      pre ++ ⟨b, done ++ (k, v') :: rest⟩ :: mid := by
  simp only [Heap.write, getElem?_append_cons_self, set_append_cons_self,
    writeProp_append_cons done k v v' rest hk]

mutual
theorem represents_congr (h h' : Heap) (lo lo' : Nat) (hlo : lo' ≤ lo)
    (hh : ∀ a o, lo ≤ a → h[a]? = some o → h'[a]? = some o) :
    ∀ (t : JsVal) (v : HVal), Represents h lo v t → Represents h' lo' v t
  | .prim q, .prim p, hr => by simpa [Represents] using hr
  | .prim q, .ref a, hr => by simp [Represents] at hr
  | .object b ps, .prim p, hr => by simp [Represents] at hr
  | .object b ps, .ref a, hr => by
    simp only [Represents] at hr ⊢
    obtain ⟨hla, o, ho, hb, hnd, hps⟩ := hr
    exact ⟨hlo.trans hla, o, hh a o hla ho, hb, hnd,
      representsProps_congr h h' lo lo' hlo hh ps o.props hps⟩
theorem representsProps_congr (h h' : Heap) (lo lo' : Nat) (hlo : lo' ≤ lo)
    (hh : ∀ a o, lo ≤ a → h[a]? = some o → h'[a]? = some o) :
    ∀ (ps : Props) (fs : List (String × HVal)),
      RepresentsProps h lo fs ps → RepresentsProps h' lo' fs ps
  | .nil, [], _ => by simp [RepresentsProps]
  | .nil, _ :: _, hr => by simp [RepresentsProps] at hr
  | .cons k t rest, [], hr => by simp [RepresentsProps] at hr
  | .cons k t rest, (k', v) :: fs, hr => by
    simp only [RepresentsProps] at hr ⊢
    exact ⟨hr.1, represents_congr h h' lo lo' hlo hh t v hr.2.1,
      representsProps_congr h h' lo lo' hlo hh rest fs hr.2.2⟩
end

/-! ## Theorems: the running `sanitizeData` computes the sanitized tree -/

theorem size_pos : ∀ t : JsVal, 0 < t.size
  | .prim _ => by simp [JsVal.size]
  | .object _ _ => by simp [JsVal.size]

mutual
/-- Running `sanitizeData` on a value that stands for the tree `t`, with fuel for the size of
`t`: it returns, memory is only extended, and the returned value stands for the sanitized
tree, read from new objects alone. -/
theorem sanitizeHeap_spec (lc : String → String) :
    ∀ (t : JsVal) (h : Heap) (v : HVal) (fuel : Nat), Represents h 0 v t → t.size ≤ fuel →
      ∃ v' ext, sanitizeHeap lc fuel h v = some (v', h ++ ext) ∧
        Represents (h ++ ext) h.length v' (sanitizeData lc t)
  | .prim q, h, .prim p, fuel, hr, _ => by
    simp only [Represents] at hr
    subst hr
    exact ⟨.prim p, [], by simp [sanitizeHeap], by simp [sanitizeData, Represents]⟩
  | .prim q, h, .ref a, fuel, hr, _ => by simp [Represents] at hr
  | .object b ps, h, .prim p, fuel, hr, _ => by simp [Represents] at hr
  | .object b ps, h, .ref a, 0, _, hf => by simp [JsVal.size] at hf
  | .object b ps, h, .ref a, fuel + 1, hr, hf => by
    simp only [Represents] at hr
    obtain ⟨_, o, ho, _, hnd, hps⟩ := hr
    have hsize : ps.size ≤ fuel := by simp only [JsVal.size] at hf; omega
    obtain ⟨todo', ext, hloop, hrep, hkeys⟩ :=
      sanitizeLoop_spec lc ps h [] o.props [] fuel hps hsize (by simp) hnd
    refine ⟨.ref h.length, ⟨false, todo'⟩ :: ext, ?_, ?_⟩
    · simp only [sanitizeHeap, ho]
      simp only [List.nil_append, List.append_nil] at hloop
      rw [hloop]
    · simp only [sanitizeData, Represents]
      refine ⟨le_refl _, ⟨false, todo'⟩, ?_, rfl, ?_, ?_⟩
      · exact getElem?_append_cons_self h _ ext
      · show (todo'.map Prod.fst).Nodup
        rw [hkeys]; exact hnd
      · simp only [List.nil_append] at hrep
        exact representsProps_congr _ _ (h.length + 1) h.length (Nat.le_succ _)
          (fun a o' _ hget => hget) (sanitizeProps lc ps) todo' hrep
/-- Running the loop over the properties still to do, in a memory where the copy sits at
address `pre.length` with the properties `done` already rewritten: the loop ends, it changes
nothing but the copy and extends memory, and the rewritten properties stand for the
sanitized property trees. -/
theorem sanitizeLoop_spec (lc : String → String) :
    ∀ (ps : Props) (pre : Heap) (done todo : List (String × HVal)) (mid : Heap) (fuel : Nat),
      RepresentsProps pre 0 todo ps → ps.size ≤ fuel →
      (∀ k ∈ todo.map Prod.fst, k ∉ done.map Prod.fst) → (todo.map Prod.fst).Nodup →
      ∃ todo' ext,
        sanitizeLoop lc (sanitizeHeap lc fuel) pre.length (todo.map Prod.fst)
            (pre ++ ⟨false, done ++ todo⟩ :: mid) =
          some (pre ++ ⟨false, done ++ todo'⟩ :: (mid ++ ext)) ∧
        RepresentsProps (pre ++ ⟨false, done ++ todo'⟩ :: (mid ++ ext)) (pre.length + 1) todo'
          (sanitizeProps lc ps) ∧
        todo'.map Prod.fst = todo.map Prod.fst
  | .nil, pre, done, [], mid, fuel, _, _, _, _ =>
    ⟨[], [], by simp [sanitizeLoop], by simp [sanitizeProps, RepresentsProps], rfl⟩
  | .nil, pre, done, _ :: _, mid, fuel, hr, _, _, _ => by simp [RepresentsProps] at hr
  | .cons key t rest, pre, done, [], mid, fuel, hr, _, _, _ => by
    simp [RepresentsProps] at hr
  | .cons key t rest, pre, done, (k, v) :: fs, mid, fuel, hr, hf, hdis, hnd => by
    simp only [RepresentsProps] at hr
    obtain ⟨hk, hv, hfs⟩ := hr
    subst hk
    have hkdone : k ∉ done.map Prod.fst := hdis k (by simp)
    simp only [List.map_cons, List.nodup_cons] at hnd
    have hsize : t.size ≤ fuel ∧ rest.size ≤ fuel := by
      simp only [Props.size] at hf; omega
    have hdis' : ∀ v' : HVal, ∀ k' ∈ fs.map Prod.fst, k' ∉ (done ++ [(k, v')]).map Prod.fst := by
      intro v' k' hk'
      simp only [List.map_append, List.map_cons, List.map_nil, List.mem_append,
        List.mem_singleton, not_or]
      exact ⟨hdis k' (by simp only [List.map_cons, List.mem_cons]; exact Or.inr hk'),
        fun e => hnd.1 (e ▸ hk')⟩
    by_cases hs : isSensitive lc k = true
    · -- the key is sensitive: the copy gets the replacement value
      obtain ⟨todo', ext, hloop, hrep, hkeys⟩ :=
        sanitizeLoop_spec lc rest pre (done ++ [(k, .prim (.str "[REDACTED]"))]) fs mid fuel hfs
          hsize.2 (hdis' _) hnd.2
      simp only [List.append_assoc, List.singleton_append] at hloop hrep
      refine ⟨(k, .prim (.str "[REDACTED]")) :: todo', ext, ?_, ?_, ?_⟩
      · simp only [List.map_cons, sanitizeLoop, hs, if_true]
        rw [write_copy pre false done k v _ fs mid hkdone]
        exact hloop
      · rw [sanitizeProps_cons_sensitive lc _ _ _ hs]
        simp only [RepresentsProps, redacted, Represents, true_and]
        exact hrep
      · simp [hkeys]
    · have hs' : isSensitive lc k = false := by simpa using hs
      cases v with
      | prim p =>
        -- a non-object under another key stays
        cases t with
        | object b ps => simp [Represents] at hv
        | prim q =>
          simp only [Represents] at hv
          subst hv
          obtain ⟨todo', ext, hloop, hrep, hkeys⟩ :=
            sanitizeLoop_spec lc rest pre (done ++ [(k, .prim p)]) fs mid fuel hfs
              hsize.2 (hdis' _) hnd.2
          simp only [List.append_assoc, List.singleton_append] at hloop hrep
          refine ⟨(k, .prim p) :: todo', ext, ?_, ?_, ?_⟩
          · simp only [List.map_cons, sanitizeLoop, hs', Bool.false_eq_true, if_false]
            rw [read_copy pre false done k _ fs mid hkdone]
            exact hloop
          · rw [sanitizeProps_cons_plain lc _ _ _ hs']
            simp only [RepresentsProps, sanitizeData, Represents, true_and]
            exact hrep
          · simp [hkeys]
      | ref a =>
        -- an object under another key is sanitized by the recursive call
        have hv' : Represents (pre ++ ⟨false, done ++ (k, .ref a) :: fs⟩ :: mid) 0 (.ref a) t :=
          represents_congr pre _ 0 0 (le_refl _)
            (fun a' o _ hget => getElem?_append_of_some pre _ a' o hget) t _ hv
        obtain ⟨v', ext₁, hcall, hrepv⟩ :=
          sanitizeHeap_spec lc t (pre ++ ⟨false, done ++ (k, .ref a) :: fs⟩ :: mid) (.ref a) fuel
            hv' hsize.1
        obtain ⟨todo', ext₂, hloop, hrep, hkeys⟩ :=
          sanitizeLoop_spec lc rest pre (done ++ [(k, v')]) fs (mid ++ ext₁) fuel hfs
            hsize.2 (hdis' _) hnd.2
        simp only [List.append_assoc, List.singleton_append] at hloop hrep
        refine ⟨(k, v') :: todo', ext₁ ++ ext₂, ?_, ?_, ?_⟩
        · simp only [List.map_cons, sanitizeLoop, hs', Bool.false_eq_true, if_false]
          rw [read_copy pre false done k _ fs mid hkdone]
          simp only [hcall]
          have hheap : (pre ++ ⟨false, done ++ (k, .ref a) :: fs⟩ :: mid) ++ ext₁ =
              pre ++ ⟨false, done ++ (k, .ref a) :: fs⟩ :: (mid ++ ext₁) := by simp
          rw [hheap, write_copy pre false done k _ v' fs (mid ++ ext₁) hkdone, hloop]
        · rw [sanitizeProps_cons_plain lc _ _ _ hs']
          simp only [RepresentsProps, true_and]
          constructor
          · refine represents_congr _ _ _ (pre.length + 1) ?_ ?_ (sanitizeData lc t) v' hrepv
            · simp
            · intro a' o hla hget
              have hla' : pre.length + 1 ≤ a' := by
                simp only [List.length_append, List.length_cons] at hla; omega
              have := getElem?_after pre ⟨false, done ++ (k, .ref a) :: fs⟩
                ⟨false, done ++ (k, v') :: todo'⟩ (mid ++ ext₁) ext₂ a' o hla'
                (by simpa using hget)
              simpa using this
          · simpa using hrep
        · simp [hkeys]
end

/-- C15: for every object held in memory that stands for a finite tree `t`, `sanitizeData`
returns; memory is only extended, so the input object and everything it refers to are
unchanged; the returned value, read from new objects alone, stands for the sanitized tree,
in which whatever is stored under a key whose lower-cased name contains one of `password`,
`token`, `secret`, `authorization`, `auth` is `"[REDACTED]"` at every depth, and every
non-object value reached through other keys is as in the input; and a second input that
differs from the first only in what is stored under such keys yields a value standing for
the same tree. This holds whatever function `toLowerCase` is. -/
theorem sanitizeData_redaction (toLowerCase : String → String) (h : Heap) (v : HVal)
    (t : JsVal) (hrep : Represents h 0 v t) :
    (∃ v' ext, sanitizeHeap toLowerCase t.size h v = some (v', h ++ ext) ∧
      Represents (h ++ ext) h.length v' (sanitizeData toLowerCase t)) ∧
    (∀ (path : List String) (key : String) (x : JsVal),
      (∃ field ∈ ["password", "token", "secret", "authorization", "auth"],
        ∃ before after : List Char,
          before ++ field.toList ++ after = (toLowerCase key).toList) →
      (sanitizeData toLowerCase t).at? (path ++ [key]) = some x →
      x = .prim (.str "[REDACTED]")) ∧
    (∀ (path : List String) (p : Prim),
      (∀ k ∈ path, ¬ ∃ field ∈ ["password", "token", "secret", "authorization", "auth"],
        ∃ before after : List Char,
          before ++ field.toList ++ after = (toLowerCase k).toList) →
      ((sanitizeData toLowerCase t).at? path = some (.prim p) ↔
        t.at? path = some (.prim p))) ∧
    (∀ (h₂ : Heap) (v₂ : HVal) (t₂ : JsVal), Represents h₂ 0 v₂ t₂ →
      AgreeOutside toLowerCase t t₂ →
      ∃ v₂' ext₂, sanitizeHeap toLowerCase t₂.size h₂ v₂ = some (v₂', h₂ ++ ext₂) ∧
        Represents (h₂ ++ ext₂) h₂.length v₂' (sanitizeData toLowerCase t)) := by
  refine ⟨sanitizeHeap_spec toLowerCase t h v t.size hrep (le_refl _),
    (sanitizeData_hides_sensitive toLowerCase t).1,
    (sanitizeData_hides_sensitive toLowerCase t).2.1, ?_⟩
  intro h₂ v₂ t₂ hrep₂ hagree
  rw [sanitizeData_agree toLowerCase t t₂ hagree]
  exact sanitizeHeap_spec toLowerCase t₂ h₂ v₂ t₂.size hrep₂ (le_refl _)

/-- An instance of the redaction: the sample context is copied into two new objects in
which `Authorization`, `client_secret`, `userPassword`, `accessToken` and `auth` hold
`"[REDACTED]"` while `email` and `n` keep their values, and the two objects that were there
are as before. -/
theorem sanitizeData_redaction_witness :
    sanitizeHeap lowerAscii sampleTree.size sampleHeap (.ref 1) =
      some (.ref 2, sampleHeap ++
        [⟨false, [("user", .ref 3), ("Authorization", .prim (.str "[REDACTED]")),
            ("client_secret", .prim (.str "[REDACTED]")), ("n", .prim (.num 0))]⟩,
         ⟨false, [("email", .prim (.str "a@b")), ("userPassword", .prim (.str "[REDACTED]")),
            ("accessToken", .prim (.str "[REDACTED]")),
            ("auth", .prim (.str "[REDACTED]"))]⟩]) ∧
    ∃ v' ext, sanitizeHeap lowerAscii sampleTree.size sampleHeap (.ref 1) =
        some (v', sampleHeap ++ ext) ∧
      Represents (sampleHeap ++ ext) sampleHeap.length v' (sanitizeData lowerAscii sampleTree) :=
  ⟨by decide, (sanitizeData_redaction lowerAscii sampleHeap (.ref 1) sampleTree
    (by simp [Represents, RepresentsProps, sampleHeap, sampleTree])).1⟩

end Logger
